import Mathlib

/-!
Verification of the FBOSS control-plane core specification against the
repository sources.

The development shallowly embeds the parts of the code the claims are
about:

* the reference-counted hardware resource table (spec section 4.1; the
  repository only ships the declaration `BcmNextHopTable::referenceOrEmplaceNextHop`
  and the `FlatRefMap` type name in `BcmNextHop.h`, so the table operations
  are modelled from the spec's contract),
* the route / next-hop programming engine (spec section 4.2; `BcmRoute.h`
  only declares `BcmRoute::program`, so the engine is modelled from the
  spec's algorithm, with the software route table shape taken from
  `BcmRouteTable`),
* the warm-boot reconciliation cache (spec section 4.3),
* the OSS warm-boot stubs from `fboss/agent/hw/bcm/oss/BcmWarmBootCache.cpp`,
* the lock discipline of `SaiSwitch` (`SaiSwitch.cpp`),
* `AggregatePortFields` serialization (`AggregatePort.cpp`).

Keys, handles, prefixes and virtual-routing-domain identifiers are
abstracted to `Nat`; everything else follows the source structurally.

The file is organised as definitions first, theorems second.
-/

namespace Fboss

/-- Error taxonomy of spec section 7 (`HardwareResourceExhausted`,
`HardwareRejected`, `ResourceUnderflow`). -/
inductive HwError
  | hardwareResourceExhausted
  | hardwareRejected
  | resourceUnderflow
deriving DecidableEq, Repr

/-- Backend calls issued against the opaque Hardware Backend (spec
section 6), plus the two per-route hardware writes the engine performs.
The engine keeps the list of calls it has issued, oldest first. -/
inductive HwEvent
  | create (key handle : Nat)
  | destroy (handle : Nat)
  | progRoute (pfx handle : Nat)
  | delRouteHw (pfx : Nat)
deriving DecidableEq, Repr

/-- Modelled from the spec: one row of a Hardware Resource Table
(section 4.1) — a logical key, the hardware handle the backend returned
for it, and the reference count of current consumers.  The concrete
implementation (`FlatRefMap` in `fboss/lib/RefMap.h`) is not part of the
sources. -/
structure TableEntry where
  key : Nat
  handle : Nat
  refCount : Nat
deriving DecidableEq, Repr

/-- Modelled from the spec: the state of a Hardware Resource Table
(section 4.1): the live entries plus the backend's handle allocator
(handles are allocated fresh, in increasing order). -/
structure TableState where
  entries : List TableEntry
  nextHandle : Nat
deriving DecidableEq, Repr

/-- Find the (first) entry whose key is `k`. -/
def findByKey : List TableEntry → Nat → Option TableEntry
  | [], _ => none
  | e :: es, k => if e.key = k then some e else findByKey es k

/-- Find the (first) entry whose handle is `h`. -/
def findByHandle : List TableEntry → Nat → Option TableEntry
  | [], _ => none
  | e :: es, h => if e.handle = h then some e else findByHandle es h

/-- Increment the reference count of the (first) entry with key `k`. -/
def bumpKey : List TableEntry → Nat → List TableEntry
  | [], _ => []
  | e :: es, k =>
    if e.key = k then { e with refCount := e.refCount + 1 } :: es
    else e :: bumpKey es k

/-- Decrement the reference count of the (first) entry with handle `h`. -/
def decByHandle : List TableEntry → Nat → List TableEntry
  | [], _ => []
  | e :: es, h =>
    if e.handle = h then { e with refCount := e.refCount - 1 } :: es
    else e :: decByHandle es h

/-- Remove the entries with handle `h` from the table. -/
def removeByHandle : List TableEntry → Nat → List TableEntry
  | [], _ => []
  | e :: es, h =>
    if e.handle = h then removeByHandle es h else e :: removeByHandle es h

/-- Modelled from the spec: `referenceOrCreate(key) -> handle`
(section 4.1), the contract of `BcmNextHopTable::referenceOrEmplaceNextHop`
whose body is not among the sources.  If a live object for the key
exists its count is incremented and its handle returned (no backend
call); otherwise the backend creates one (the `create` event), it is
registered with count 1, and its fresh handle is returned. -/
def referenceOrCreate (t : TableState) (k : Nat) :
    Nat × TableState × List HwEvent :=
  match findByKey t.entries k with
  | some e => (e.handle, { t with entries := bumpKey t.entries k }, [])
  | none =>
      (t.nextHandle,
       { entries := t.entries ++ [⟨k, t.nextHandle, 1⟩],
         nextHandle := t.nextHandle + 1 },
       [HwEvent.create k t.nextHandle])

/-- Modelled from the spec: `lookup(key) -> handle | not-found`
(section 4.1), the contract of the const accessor
`BcmNextHopTable::getNextHopIf`.  The state is returned unchanged
alongside the result to make the read-only contract a provable
statement. -/
def lookup (t : TableState) (k : Nat) : Option Nat × TableState :=
  ((findByKey t.entries k).map (fun e => e.handle), t)

/-- Modelled from the spec: `release(handle)` (section 4.1).  Decrements
the reference count; when the count reaches zero the object is destroyed
via the backend (the `destroy` event) and removed from the table.
Releasing a handle whose count is already zero (including a handle that
is no longer registered) is the `ResourceUnderflow` programming error. -/
def release (t : TableState) (h : Nat) :
    Except HwError (TableState × List HwEvent) :=
  match findByHandle t.entries h with
  | none => .error .resourceUnderflow
  | some e =>
      if e.refCount = 0 then .error .resourceUnderflow
      else if e.refCount = 1 then
        .ok ({ t with entries := removeByHandle t.entries h },
             [HwEvent.destroy h])
      else
        .ok ({ t with entries := decByHandle t.entries h }, [])

/-- Reference count currently recorded for key `k`, if registered. -/
def refCountOfKey (t : TableState) (k : Nat) : Option Nat :=
  (findByKey t.entries k).map (fun e => e.refCount)

/-- Reference count currently recorded for handle `h`, if registered. -/
def refCountOfHandle (t : TableState) (h : Nat) : Option Nat :=
  (findByHandle t.entries h).map (fun e => e.refCount)

/-! The route / next-hop programming engine (spec section 4.2).  The
bodies of `BcmRoute::program` and `BcmRouteTable::addRoute` are not in
the sources (only `BcmRoute.h`), so the engine is modelled from the
spec's algorithm: reference the desired next hop, program the hardware
route, then release the previously held reference only after the new
programming succeeded; for a removal, remove the hardware route and then
release the reference as the last step. -/

/-- Software-side route table entry (`BcmRouteTable::fib_` maps a key to
a `BcmRoute` which holds `nextHopHostReference_`): the route's prefix,
the next-hop key it resolved to, and the hardware handle it was
programmed with. -/
structure RouteEnt where
  pfx : Nat
  key : Nat
  handle : Nat
deriving DecidableEq, Repr

/-- State of the programming engine: the next-hop resource table, the
software route table and the log of hardware calls issued so far. -/
structure EngineState where
  table : TableState
  routes : List RouteEnt
  events : List HwEvent
deriving DecidableEq, Repr

/-- Modelled from the spec: the Hardware Backend's disposition
(section 6) — whether creating the object for a given key succeeds and
whether writing the route entry for a given prefix succeeds. -/
structure Backend where
  createOk : Nat → Bool
  routeOk : Nat → Bool

/-- Per-route failures surfaced by the engine
(`RouteProgrammingFailed{prefix, reason}` of spec section 7) and the
fatal internal `ResourceUnderflow` escalation. -/
inductive PassError
  | routeProgrammingFailed (pfx : Nat) (reason : HwError)
  | underflowAbort (pfx : Nat)
deriving DecidableEq, Repr

/-- Find the (first) software route with prefix `pfx`. -/
def findRoute : List RouteEnt → Nat → Option RouteEnt
  | [], _ => none
  | r :: rs, pfx => if r.pfx = pfx then some r else findRoute rs pfx

/-- Remove the software routes with prefix `pfx`. -/
def dropRoute : List RouteEnt → Nat → List RouteEnt
  | [], _ => []
  | r :: rs, pfx =>
    if r.pfx = pfx then dropRoute rs pfx else r :: dropRoute rs pfx

/-- Modelled from the spec: `referenceOrCreate` against a fallible
backend (section 4.1 failure semantics): when the key misses and the
backend create fails, nothing is registered and
`HardwareResourceExhausted` propagates. -/
def referenceOrCreateF (bk : Backend) (t : TableState) (k : Nat) :
    Except HwError (Nat × TableState × List HwEvent) :=
  match findByKey t.entries k with
  | some _ => .ok (referenceOrCreate t k)
  | none =>
      if bk.createOk k then .ok (referenceOrCreate t k)
      else .error .hardwareResourceExhausted

/-- Modelled from the spec: programming one route add / next-hop change
(section 4.2, steps 1-3): obtain the next-hop handle, program the
hardware route entry, and only then release the reference previously
held; a backend failure aborts just this route, rolling back the
reference taken, and is reported as `RouteProgrammingFailed`. -/
def programRoute (bk : Backend) (s : EngineState) (pfx k : Nat) :
    EngineState × Option PassError :=
  match referenceOrCreateF bk s.table k with
  | .error reason => (s, some (.routeProgrammingFailed pfx reason))
  | .ok (h, t1, ev1) =>
    if bk.routeOk pfx then
      let routes1 := dropRoute s.routes pfx ++ [⟨pfx, k, h⟩]
      let ev2 := [HwEvent.progRoute pfx h]
      match findRoute s.routes pfx with
      | none => (⟨t1, routes1, s.events ++ ev1 ++ ev2⟩, none)
      | some r =>
        match release t1 r.handle with
        | .ok (t2, ev3) => (⟨t2, routes1, s.events ++ ev1 ++ ev2 ++ ev3⟩, none)
        | .error _ => (s, some (.underflowAbort pfx))
    else
      match release t1 h with
      | .ok (t2, ev3) =>
          (⟨t2, s.routes, s.events ++ ev1 ++ ev3⟩,
           some (.routeProgrammingFailed pfx .hardwareRejected))
      | .error _ => (s, some (.underflowAbort pfx))

/-- Modelled from the spec: a route removal (section 4.2): the hardware
route entry is removed first, the next-hop reference released as the
last step. -/
def removeRouteOp (s : EngineState) (pfx : Nat) :
    EngineState × Option PassError :=
  match findRoute s.routes pfx with
  | none => (s, none)
  | some r =>
    match release s.table r.handle with
    | .ok (t2, ev3) =>
        (⟨t2, dropRoute s.routes pfx,
          s.events ++ [HwEvent.delRouteHw pfx] ++ ev3⟩, none)
    | .error _ => (s, some (.underflowAbort pfx))

/-- A backend on which every operation succeeds. -/
def allOk : Backend := ⟨fun _ => true, fun _ => true⟩

/-- One State Delta element applied by the engine. -/
inductive EngineOp
  | add (pfx k : Nat)
  | remove (pfx : Nat)
deriving DecidableEq, Repr

/-- Apply one delta element (with a successfully operating backend). -/
def applyOp (s : EngineState) : EngineOp → EngineState × Option PassError
  | .add pfx k => programRoute allOk s pfx k
  | .remove pfx => removeRouteOp s pfx

/-- Run a sequence of delta elements; a fatal invariant violation stops
the pass at the last known-good state (spec section 7 propagation
policy). -/
def runOps : EngineState → List EngineOp → EngineState
  | s, [] => s
  | s, op :: rest =>
    match applyOp s op with
    | (s1, none) => runOps s1 rest
    | (_, some _) => s

/-- Run one synchronization pass of route adds against a fallible
backend, collecting the per-route failures; per-route failures do not
abort the pass (spec section 7). -/
def runPass (bk : Backend) :
    EngineState → List (Nat × Nat) → EngineState × List PassError
  | s, [] => (s, [])
  | s, (pfx, k) :: rest =>
    let r1 := programRoute bk s pfx k
    let r2 := runPass bk r1.1 rest
    (r2.1, r1.2.toList ++ r2.2)

/-- The engine's initial, empty state. -/
def emptyEngine : EngineState := ⟨⟨[], 0⟩, [], []⟩

/-- The keys of the table's entries. -/
def keysOf (l : List TableEntry) : List Nat := l.map (fun e => e.key)

/-- The handles of the table's entries. -/
def handlesOf (l : List TableEntry) : List Nat := l.map (fun e => e.handle)

/-- The prefixes of the software routes. -/
def pfxsOf (rs : List RouteEnt) : List Nat := rs.map (fun r => r.pfx)

/-- Number of live hardware objects registered for key `k` — the claim
C1 quantity. -/
def objectsForKey (t : TableState) (k : Nat) : Nat :=
  (t.entries.filter (fun e => decide (e.key = k))).length

/-- Number of software routes currently referencing handle `h` (the
consumers of spec section 3). -/
def countRefs (rs : List RouteEnt) (h : Nat) : Nat :=
  (rs.filter (fun r => decide (r.handle = h))).length

/-! A trace checker for the ordering claim C5.  It replays the engine's
hardware call log and verifies, step by step, that a route is only
programmed against a handle that has been created (and not destroyed)
earlier in the trace, and that a handle is only destroyed when no route
programmed in hardware still references it. -/

/-- Remove the occurrences of `h` from a list of handles. -/
def dropNat : List Nat → Nat → List Nat
  | [], _ => []
  | x :: xs, h => if x = h then dropNat xs h else x :: dropNat xs h

/-- Remove the (prefix, handle) pairs whose prefix is `pfx`. -/
def dropRef : List (Nat × Nat) → Nat → List (Nat × Nat)
  | [], _ => []
  | q :: qs, pfx => if q.1 = pfx then dropRef qs pfx else q :: dropRef qs pfx

/-- The handles referenced by a list of (prefix, handle) pairs. -/
def sndsOf (qs : List (Nat × Nat)) : List Nat := qs.map (fun q => q.2)

/-- Abstract hardware state reconstructed while replaying a trace: which
handles are currently created, and which (prefix, handle) route entries
are currently programmed. -/
structure ReplayState where
  live : List Nat
  rrefs : List (Nat × Nat)
deriving DecidableEq, Repr

/-- One step of the trace checker; `none` marks an ordering violation:
programming a route against a handle that is not live, or destroying a
handle some programmed route still references. -/
def replayStep (r : ReplayState) : HwEvent → Option ReplayState
  | .create _ h => some ⟨r.live ++ [h], r.rrefs⟩
  | .progRoute pfx h =>
      if h ∈ r.live then some ⟨r.live, dropRef r.rrefs pfx ++ [(pfx, h)]⟩
      else none
  | .delRouteHw pfx => some ⟨r.live, dropRef r.rrefs pfx⟩
  | .destroy h =>
      if h ∈ sndsOf r.rrefs then none
      else if h ∈ r.live then some ⟨dropNat r.live h, r.rrefs⟩
      else none

/-- Replay a whole trace; `none` when some step violates the ordering. -/
def replayRun : ReplayState → List HwEvent → Option ReplayState
  | r, [] => some r
  | r, ev :: evs =>
    match replayStep r ev with
    | some r1 => replayRun r1 evs
    | none => none

/-- The (prefix, handle) pairs a software route table programs. -/
def mapRefs (rs : List RouteEnt) : List (Nat × Nat) :=
  rs.map (fun r => (r.pfx, r.handle))

/-- The replay-level abstraction of an engine state. -/
def absOf (s : EngineState) : ReplayState :=
  ⟨handlesOf s.table.entries, mapRefs s.routes⟩

/-- The engine invariant backing claims C1 and C5: table keys and
handles are unique, handles are allocated below the allocator bound,
every entry is referenced at least once and its reference count equals
the number of software routes holding its handle, every programmed route
points at a live entry whose key matches, route prefixes are unique, and
the hardware call log replays without ordering violations onto the
abstraction of the current state. -/
structure Inv (s : EngineState) : Prop where
  keysNodup : (keysOf s.table.entries).Nodup
  handlesNodup : (handlesOf s.table.entries).Nodup
  fresh : ∀ e ∈ s.table.entries, e.handle < s.table.nextHandle
  pos : ∀ e ∈ s.table.entries, 1 ≤ e.refCount
  counts : ∀ e ∈ s.table.entries, e.refCount = countRefs s.routes e.handle
  live : ∀ r ∈ s.routes,
    ∃ e ∈ s.table.entries, e.key = r.key ∧ e.handle = r.handle
  pfxNodup : (pfxsOf s.routes).Nodup
  replay : replayRun ⟨[], []⟩ s.events = some (absOf s)

/-! The warm-boot reconciliation cache (spec section 4.3).  The claim
logic (`BcmWarmBootCache`'s populate / claim / clear) is not among the
sources apart from the OSS stubs, so the protocol is modelled from the
spec. -/

/-- Modelled from the spec: one Warm-Boot Cache entry (section 4.3, data
model section 3): a hardware-derived logical key, the pre-existing
hardware handle, and the claimed flag. -/
structure CacheEntry where
  key : Nat
  handle : Nat
  claimed : Bool
deriving DecidableEq, Repr

/-- Modelled from the spec: the state of the startup reconciliation: the
warm-boot cache, the live resource table being (re)built, and the
backend calls issued. -/
structure WbState where
  cache : List CacheEntry
  table : TableState
  events : List HwEvent
deriving DecidableEq, Repr

/-- Modelled from the spec: populate the cache from `enumerateExisting`
(section 4.3 step 1); every pre-existing object enters unclaimed. -/
def populateCache (hw : List (Nat × Nat)) : List CacheEntry :=
  hw.map (fun q => ⟨q.1, q.2, false⟩)

/-- Find the (first) unclaimed cache entry with key `k`. -/
def findCache : List CacheEntry → Nat → Option CacheEntry
  | [], _ => none
  | c :: cs, k =>
    if c.key = k ∧ c.claimed = false then some c else findCache cs k

/-- Mark the (first) unclaimed cache entry with key `k` as claimed. -/
def claimKey : List CacheEntry → Nat → List CacheEntry
  | [], _ => []
  | c :: cs, k =>
    if c.key = k ∧ c.claimed = false then { c with claimed := true } :: cs
    else c :: claimKey cs k

/-- Modelled from the spec: `referenceOrCreate` consulting the warm-boot
cache first (section 4.3 step 2): a live table hit bumps the reference
count; an unclaimed cache hit adopts the existing hardware object into
the table with its existing handle, claimed and seeded with count 1, and
no create call is issued; otherwise a fresh object is created through
the backend. -/
def referenceOrAdopt (w : WbState) (k : Nat) : WbState :=
  match findByKey w.table.entries k with
  | some _ =>
      { w with table :=
          { w.table with entries := bumpKey w.table.entries k } }
  | none =>
      match findCache w.cache k with
      | some c =>
          { cache := claimKey w.cache k,
            table := { w.table with
              entries := w.table.entries ++ [⟨k, c.handle, 1⟩] },
            events := w.events }
      | none =>
          { cache := w.cache,
            table := ⟨w.table.entries ++ [⟨k, w.table.nextHandle, 1⟩],
              w.table.nextHandle + 1⟩,
            events := w.events ++ [HwEvent.create k w.table.nextHandle] }

/-- Modelled from the spec: after the pass, destroy every hardware
object still unclaimed in the cache (section 4.3 step 3); the second
component lists the purged handles. -/
def purgeUnclaimed (w : WbState) : WbState × List Nat :=
  let stale :=
    (w.cache.filter (fun c => decide (c.claimed = false))).map
      (fun c => c.handle)
  ({ w with events := w.events ++ stale.map HwEvent.destroy }, stale)

/-- Modelled from the spec: the whole warm-boot reconciliation
(section 4.3): populate the cache from the enumerated hardware objects,
run the first full synchronization pass of desired next-hop keys against
it, then purge whatever was never claimed. -/
def reconcile (hw : List (Nat × Nat)) (desired : List Nat) :
    WbState × List Nat :=
  let w0 : WbState :=
    ⟨populateCache hw,
     ⟨[], ((hw.map (fun q => q.2)).foldr max 0) + 1⟩, []⟩
  purgeUnclaimed (desired.foldl referenceOrAdopt w0)

/-- Modelled from the spec: the reconciliation invariant: no backend
call was issued yet, cache keys are unique, a claimed entry's key is
live in the table, an unclaimed entry's key is not. -/
structure WbInv (w : WbState) : Prop where
  evs : w.events = []
  cacheKeysN : (w.cache.map (fun c => c.key)).Nodup
  claimedIn : ∀ c ∈ w.cache, c.claimed = true →
    c.key ∈ keysOf w.table.entries
  unclaimedOut : ∀ c ∈ w.cache, c.claimed = false →
    c.key ∉ keysOf w.table.entries

/-- Embedded from `fboss/agent/hw/bcm/oss/BcmWarmBootCache.cpp`: the OSS
build's `BcmWarmBootCache::removeUnclaimedMirror` has an empty body — it
receives the unclaimed mirror's handle, issues no hardware call, and
leaves the programmed mirror state unchanged.  The state is the list of
mirror handles programmed in hardware; the second component is the list
of backend calls the function issues. -/
def removeUnclaimedMirror (_mirror : Nat) (hwMirrors : List Nat) :
    List Nat × List HwEvent :=
  (hwMirrors, [])

/-- Modelled from the spec: the engine's post-pass loop handing each
still-unclaimed mirror cache entry to the per-type removal hook
`removeUnclaimedMirror` (the loop itself is not among the sources). -/
def removeUnclaimedMirrors :
    List Nat → List Nat → List Nat × List HwEvent
  | [], hwMirrors => (hwMirrors, [])
  | m :: rest, hwMirrors =>
    let r1 := removeUnclaimedMirror m hwMirrors
    let r2 := removeUnclaimedMirrors rest r1.1
    (r2.1, r1.2 ++ r2.2)

/-! The `SaiSwitch` lock discipline (SaiSwitch.cpp): every public entry
point constructs a `std::lock_guard` on the single `saiSwitchMutex_` and
only then calls the corresponding `...Locked` function, so the whole
body runs inside the critical section. -/

/-- The public entry points of `SaiSwitch` as they appear in
SaiSwitch.cpp; each acquires `saiSwitchMutex_` on entry. -/
inductive SaiMethod
  | init
  | unregisterCallbacks
  | stateChanged
  | isValidStateUpdate
  | allocatePacket
  | sendPacketSwitchedAsync
  | sendPacketOutOfPortAsync
  | sendPacketSwitchedSync
  | sendPacketOutOfPortSync
  | updateStats
  | fetchL2Table
  | gracefulExit
  | toFollyDynamic
  | initialConfigApplied
  | clearWarmBootCache
  | switchRunStateChanged
  | exitFatal
  | isPortUp
  | getAndClearNeighborHit
  | clearPortStats
  | getPortMaxSpeed
  | packetRxCallback
  | getBootType
  | managerTable
  | apiTable
deriving DecidableEq, Repr

/-- Number of atomic steps of each method's `...Locked` body
(`stateChangedLocked` applies five manager deltas: VLANs, router
interfaces, neighbors, routes, hostif; the other bodies are modelled as
one step). -/
def lockedBodyLen : SaiMethod → Nat
  | .stateChanged => 5
  | _ => 1

/-- A configuration of concurrently executing `SaiSwitch` entry points:
per-thread program counters and the current owner of `saiSwitchMutex_`.
Thread `i` runs method `ms i`; its counter is 0 before the `lock_guard`
is constructed, `p` with `1 ≤ p ≤ lockedBodyLen (ms i)` while executing
the locked body, and `lockedBodyLen (ms i) + 1` after the guard was
destroyed and the method returned. -/
structure SaiConf where
  pc : Nat → Nat
  owner : Option Nat

/-- Thread `i` is inside its locked body — between acquiring and
releasing `saiSwitchMutex_`.  Every hardware-table mutation of
SaiSwitch.cpp happens at such program counters. -/
def inCritical (ms : Nat → SaiMethod) (c : SaiConf) (i : Nat) : Prop :=
  1 ≤ c.pc i ∧ c.pc i ≤ lockedBodyLen (ms i)

/-- Interleaving semantics of the lock-guarded methods: a thread may
acquire the mutex when it is free, advance through its locked body while
owning it, and release it after the last body step (the `lock_guard`
destructor). -/
inductive SaiStep (ms : Nat → SaiMethod) : SaiConf → SaiConf → Prop
  | acquire (c : SaiConf) (i : Nat) (h0 : c.pc i = 0)
      (hfree : c.owner = none) :
      SaiStep ms c ⟨Function.update c.pc i 1, some i⟩
  | work (c : SaiConf) (i p : Nat) (hp : c.pc i = p) (h1 : 1 ≤ p)
      (h2 : p < lockedBodyLen (ms i)) (hown : c.owner = some i) :
      SaiStep ms c ⟨Function.update c.pc i (p + 1), c.owner⟩
  | unlock (c : SaiConf) (i : Nat)
      (hp : c.pc i = lockedBodyLen (ms i)) (h1 : 1 ≤ c.pc i)
      (hown : c.owner = some i) :
      SaiStep ms c ⟨Function.update c.pc i (c.pc i + 1), none⟩

/-- All threads at their entry point, mutex free. -/
def saiInit : SaiConf := ⟨fun _ => 0, none⟩

/-- Configurations reachable from the initial one. -/
def SaiReach (ms : Nat → SaiMethod) (c : SaiConf) : Prop :=
  Relation.ReflTransGen (SaiStep ms) saiInit c

/-- The mutex invariant: the owner (if any) is inside its locked body
and everyone else is outside (before the lock or already returned). -/
def SaiLockInv (ms : Nat → SaiMethod) (c : SaiConf) : Prop :=
  match c.owner with
  | some i => inCritical ms c i ∧
      ∀ j, j ≠ i → c.pc j = 0 ∨ c.pc j = lockedBodyLen (ms j) + 1
  | none => ∀ j, c.pc j = 0 ∨ c.pc j = lockedBodyLen (ms j) + 1

/-! `AggregatePortFields` serialization (AggregatePort.cpp). -/

/-- Per-subport forwarding state (`AggregatePort::Forwarding`). -/
inductive Forwarding
  | disabled
  | enabled
deriving DecidableEq, Repr

/-- Modelled from the spec: the defaulted `fwd` argument of the
`AggregatePortFields` constructor; the header declaring the default
value is not among the sources — the claim only needs that it is one
fixed default. -/
def fwdDefault : Forwarding := .disabled

/-- `AggregatePortFields` (AggregatePort.cpp): id, name, description,
the sorted subport set (`Subports`, a sorted flat set of `PortID`), and
the per-subport forwarding map `portToFwdState_`. -/
structure AggregatePortFields where
  id : Nat
  name : String
  description : String
  ports : List Nat
  portToFwdState : List (Nat × Forwarding)
deriving DecidableEq, Repr

/-- The `AggregatePortFields` constructor (AggregatePort.cpp): stores
the fields and seeds `portToFwdState_` with `fwd` for every subport. -/
def AggregatePortFields.make (id : Nat) (name description : String)
    (ports : List Nat) (fwd : Forwarding) : AggregatePortFields :=
  ⟨id, name, description, ports, ports.map (fun p => (p, fwd))⟩

/-- The JSON object produced by `AggregatePortFields::toFollyDynamic`:
kId, kName, kDescription and kSubports; the forwarding states are not
serialized. -/
structure AggPortJson where
  id : Nat
  name : String
  description : String
  subports : List Nat
deriving DecidableEq, Repr

/-- `AggregatePortFields::toFollyDynamic` (AggregatePort.cpp): id, name,
description and the subports in set order. -/
def AggregatePortFields.toFollyDynamic (f : AggregatePortFields) :
    AggPortJson :=
  ⟨f.id, f.name, f.description, f.ports⟩

/-- Ordered-set insertion, as performed by the `emplace_hint` into the
`Subports` flat set in `fromFollyDynamic`. -/
def insertSorted : List Nat → Nat → List Nat
  | [], x => [x]
  | y :: ys, x =>
    if x < y then x :: y :: ys
    else if x = y then y :: ys
    else y :: insertSorted ys x

/-- `AggregatePortFields::fromFollyDynamic` (AggregatePort.cpp): rebuild
the subport set from the serialized list and call the constructor with
the defaulted forwarding state. -/
def AggregatePortFields.fromFollyDynamic (j : AggPortJson) :
    AggregatePortFields :=
  AggregatePortFields.make j.id j.name j.description
    (j.subports.foldl insertSorted []) fwdDefault

/-! The `SaiSwitch` boot-type state machine (SaiSwitch.cpp). -/

/-- The agent's boot type as used by `SaiSwitch` (`BootType::COLD_BOOT`
and `BootType::WARM_BOOT`; `notSet` stands for the uninitialized member
before `initLocked` ran). -/
inductive BootType
  | notSet
  | coldBoot
  | warmBoot
deriving DecidableEq, Repr

/-- The run states distinguished by `switchRunStateChangedLocked`:
`SwitchRunState::INITIALIZED` registers the rx callback, every other
value falls through to the default branch. -/
inductive SwitchRunState
  | initialized
  | other
deriving DecidableEq, Repr

/-- The `SaiSwitch` members written by SaiSwitch.cpp: the stored boot
type (`bootType_`), the api/manager-table and callback pointers set up
by `initLocked` (abstracted to flags), whether the rx callback was
registered, and a counter abstracting the manager-table mutations a
`stateChangedLocked` performs. -/
structure SaiSwitchS where
  bootType : BootType
  apiTableSet : Bool
  managerTableSet : Bool
  callbackSet : Bool
  rxCallbackRegistered : Bool
  managerGen : Nat
deriving DecidableEq, Repr

/-- The part of `HwInitResult` that `SaiSwitch::initLocked` fills in. -/
structure HwInitResult where
  bootType : BootType
deriving DecidableEq, Repr

/-- `SaiSwitch::initLocked` (SaiSwitch.cpp): sets `ret.bootType` and
`bootType_` to `BootType::COLD_BOOT` unconditionally, creates the api
and manager tables and stores the callback. -/
def SaiSwitchS.initLocked (s : SaiSwitchS) : HwInitResult × SaiSwitchS :=
  (⟨BootType.coldBoot⟩,
   { s with
      bootType := BootType.coldBoot
      apiTableSet := true
      managerTableSet := true
      callbackSet := true })

/-- `SaiSwitch::getBootTypeLocked` (SaiSwitch.cpp): returns
`bootType_`. -/
def SaiSwitchS.getBootTypeLocked (s : SaiSwitchS) : BootType :=
  s.bootType

/-- The locked operations of SaiSwitch.cpp other than `initLocked`,
i.e. everything that can run after `init`. -/
inductive SaiOp
  | stateChanged
  | unregisterCallbacks
  | isValidStateUpdate
  | allocatePacket
  | sendPacketSwitchedAsync
  | sendPacketOutOfPortAsync
  | sendPacketSwitchedSync
  | sendPacketOutOfPortSync
  | updateStats
  | fetchL2Table
  | gracefulExit
  | toFollyDynamic
  | initialConfigApplied
  | clearWarmBootCache
  | switchRunStateChanged (st : SwitchRunState)
  | exitFatal
  | isPortUp
  | getAndClearNeighborHit
  | clearPortStats
  | getPortMaxSpeed
  | packetRxCallback
  | getBootType
deriving DecidableEq, Repr

/-- Effect of each locked operation on the `SaiSwitch` members, read off
SaiSwitch.cpp: `stateChangedLocked` mutates the manager tables,
`switchRunStateChangedLocked` registers the rx callback at INITIALIZED;
none of them assigns `bootType_`. -/
def applySaiOp (s : SaiSwitchS) : SaiOp → SaiSwitchS
  | .stateChanged => { s with managerGen := s.managerGen + 1 }
  | .switchRunStateChanged st =>
      match st with
      | .initialized => { s with rxCallbackRegistered := true }
      | .other => s
  | _ => s

/-- Run a sequence of locked operations. -/
def runSaiOps (s : SaiSwitchS) : List SaiOp → SaiSwitchS
  | [] => s
  | op :: rest => runSaiOps (applySaiOp s op) rest

/-! ### Theorems -/

theorem findByKey_bumpKey_self (l : List TableEntry) (k : Nat) :
    findByKey (bumpKey l k) k =
      (findByKey l k).map (fun e => { e with refCount := e.refCount + 1 }) := by
  induction l with
  | nil => simp [findByKey, bumpKey]
  | cons e es ih =>
    by_cases h : e.key = k
    · simp [findByKey, bumpKey, h]
    · simp [findByKey, bumpKey, h, ih]

theorem findByKey_bumpKey_ne (l : List TableEntry) (k k2 : Nat)
    (hne : k2 ≠ k) : findByKey (bumpKey l k) k2 = findByKey l k2 := by
  induction l with
  | nil => simp [findByKey, bumpKey]
  | cons e es ih =>
    by_cases h : e.key = k
    · have : ¬ e.key = k2 := by
        intro hc; exact hne (hc ▸ h)
      simp [findByKey, bumpKey, h, this, hne.symm]
    · by_cases h2 : e.key = k2
      · simp [findByKey, bumpKey, h, h2, hne]
      · simp [findByKey, bumpKey, h, h2, ih]

theorem findByKey_append_single_ne (l : List TableEntry) (e : TableEntry)
    (k : Nat) (hne : ¬ e.key = k) :
    findByKey (l ++ [e]) k = findByKey l k := by
  induction l with
  | nil => simp [findByKey, hne]
  | cons e2 es ih =>
    by_cases h : e2.key = k
    · simp [findByKey, h]
    · simp [findByKey, h, ih]

theorem findByKey_append_of_none (l : List TableEntry) (e : TableEntry)
    (k : Nat) (hl : findByKey l k = none) :
    findByKey (l ++ [e]) k = findByKey [e] k := by
  induction l with
  | nil => simp
  | cons e2 es ih =>
    by_cases h : e2.key = k
    · simp [findByKey, h] at hl
    · simp only [findByKey, h, if_false] at hl
      simp only [List.cons_append, findByKey, h, if_false]
      exact ih hl

theorem findByHandle_decByHandle_self (l : List TableEntry) (h : Nat) :
    findByHandle (decByHandle l h) h =
      (findByHandle l h).map (fun e => { e with refCount := e.refCount - 1 }) := by
  induction l with
  | nil => simp [findByHandle, decByHandle]
  | cons e es ih =>
    by_cases hh : e.handle = h
    · simp [findByHandle, decByHandle, hh]
    · simp [findByHandle, decByHandle, hh, ih]

theorem findByHandle_decByHandle_ne (l : List TableEntry) (h h2 : Nat)
    (hne : h2 ≠ h) : findByHandle (decByHandle l h) h2 = findByHandle l h2 := by
  induction l with
  | nil => simp [findByHandle, decByHandle]
  | cons e es ih =>
    by_cases hh : e.handle = h
    · have : ¬ e.handle = h2 := by
        intro hc; exact hne (hc ▸ hh)
      simp [findByHandle, decByHandle, hh, this, hne.symm]
    · by_cases hh2 : e.handle = h2
      · simp [findByHandle, decByHandle, hh, hh2, hne]
      · simp [findByHandle, decByHandle, hh, hh2, ih]

theorem findByHandle_removeByHandle_self (l : List TableEntry) (h : Nat) :
    findByHandle (removeByHandle l h) h = none := by
  induction l with
  | nil => simp [findByHandle, removeByHandle]
  | cons e es ih =>
    by_cases hh : e.handle = h
    · simp [removeByHandle, hh, ih]
    · simp [findByHandle, removeByHandle, hh, ih]

theorem findByHandle_removeByHandle_ne (l : List TableEntry) (h h2 : Nat)
    (hne : h2 ≠ h) :
    findByHandle (removeByHandle l h) h2 = findByHandle l h2 := by
  induction l with
  | nil => simp [findByHandle, removeByHandle]
  | cons e es ih =>
    by_cases hh : e.handle = h
    · have : ¬ e.handle = h2 := by
        intro hc; exact hne (hc ▸ hh)
      simp [findByHandle, removeByHandle, hh, this, ih, hne.symm]
    · by_cases hh2 : e.handle = h2
      · simp [findByHandle, removeByHandle, hh, hh2, hne]
      · simp [findByHandle, removeByHandle, hh, hh2, ih]

theorem findByKey_mem {l : List TableEntry} {k : Nat} {e : TableEntry}
    (h : findByKey l k = some e) : e ∈ l ∧ e.key = k := by
  induction l with
  | nil => simp [findByKey] at h
  | cons e2 es ih =>
    by_cases h2 : e2.key = k
    · simp [findByKey, h2] at h
      subst h
      exact ⟨List.mem_cons_self _ _, h2⟩
    · simp only [findByKey, h2, if_false] at h
      rcases ih h with ⟨hm, hk⟩
      exact ⟨List.mem_cons_of_mem _ hm, hk⟩

theorem findByKey_eq_none_iff {l : List TableEntry} {k : Nat} :
    findByKey l k = none ↔ k ∉ keysOf l := by
  induction l with
  | nil => simp [findByKey, keysOf]
  | cons e es ih =>
    by_cases h : e.key = k
    · simp [findByKey, keysOf, h]
    · have hk : ¬ k = e.key := fun hc => h hc.symm
      simp [findByKey, keysOf, h, ih, hk]

theorem findByHandle_mem {l : List TableEntry} {h : Nat} {e : TableEntry}
    (hf : findByHandle l h = some e) : e ∈ l ∧ e.handle = h := by
  induction l with
  | nil => simp [findByHandle] at hf
  | cons e2 es ih =>
    by_cases h2 : e2.handle = h
    · simp [findByHandle, h2] at hf
      subst hf
      exact ⟨List.mem_cons_self _ _, h2⟩
    · simp only [findByHandle, h2, if_false] at hf
      rcases ih hf with ⟨hm, hk⟩
      exact ⟨List.mem_cons_of_mem _ hm, hk⟩

theorem findByHandle_eq_none_iff {l : List TableEntry} {h : Nat} :
    findByHandle l h = none ↔ h ∉ handlesOf l := by
  induction l with
  | nil => simp [findByHandle, handlesOf]
  | cons e es ih =>
    by_cases h2 : e.handle = h
    · simp [findByHandle, handlesOf, h2]
    · have hk : ¬ h = e.handle := fun hc => h2 hc.symm
      simp [findByHandle, handlesOf, h2, ih, hk]

theorem findByHandle_append (l1 l2 : List TableEntry) (h : Nat) :
    findByHandle (l1 ++ l2) h =
      match findByHandle l1 h with
      | some e => some e
      | none => findByHandle l2 h := by
  induction l1 with
  | nil => simp [findByHandle]
  | cons e es ih =>
    by_cases h2 : e.handle = h
    · simp [findByHandle, h2]
    · simp [findByHandle, h2, ih]

theorem bumpKey_of_none {l : List TableEntry} {k : Nat}
    (h : findByKey l k = none) : bumpKey l k = l := by
  induction l with
  | nil => rfl
  | cons e es ih =>
    by_cases h2 : e.key = k
    · simp [findByKey, h2] at h
    · simp only [findByKey, h2, if_false] at h
      simp [bumpKey, h2, ih h]

theorem keysOf_bumpKey (l : List TableEntry) (k : Nat) :
    keysOf (bumpKey l k) = keysOf l := by
  induction l with
  | nil => rfl
  | cons e es ih =>
    by_cases h : e.key = k
    · simp [bumpKey, keysOf, h]
    · simp [bumpKey, keysOf, h] at ih ⊢
      exact ih

theorem handlesOf_bumpKey (l : List TableEntry) (k : Nat) :
    handlesOf (bumpKey l k) = handlesOf l := by
  induction l with
  | nil => rfl
  | cons e es ih =>
    by_cases h : e.key = k
    · simp [bumpKey, handlesOf, h]
    · simp [bumpKey, handlesOf, h] at ih ⊢
      exact ih

theorem keysOf_decByHandle (l : List TableEntry) (h : Nat) :
    keysOf (decByHandle l h) = keysOf l := by
  induction l with
  | nil => rfl
  | cons e es ih =>
    by_cases h2 : e.handle = h
    · simp [decByHandle, keysOf, h2]
    · simp [decByHandle, keysOf, h2] at ih ⊢
      exact ih

theorem handlesOf_decByHandle (l : List TableEntry) (h : Nat) :
    handlesOf (decByHandle l h) = handlesOf l := by
  induction l with
  | nil => rfl
  | cons e es ih =>
    by_cases h2 : e.handle = h
    · simp [decByHandle, handlesOf, h2]
    · simp [decByHandle, handlesOf, h2] at ih ⊢
      exact ih

theorem removeByHandle_sublist (l : List TableEntry) (h : Nat) :
    List.Sublist (removeByHandle l h) l := by
  induction l with
  | nil => simp [removeByHandle]
  | cons e es ih =>
    by_cases h2 : e.handle = h
    · simp only [removeByHandle, h2, if_true]
      exact ih.cons _
    · simp only [removeByHandle, h2, if_false]
      exact ih.cons₂ _

theorem removeByHandle_append (l1 l2 : List TableEntry) (h : Nat) :
    removeByHandle (l1 ++ l2) h =
      removeByHandle l1 h ++ removeByHandle l2 h := by
  induction l1 with
  | nil => rfl
  | cons e es ih =>
    by_cases h2 : e.handle = h
    · simp [removeByHandle, h2, ih]
    · simp [removeByHandle, h2, ih]

theorem removeByHandle_of_forall_ne {l : List TableEntry} {h : Nat}
    (hne : ∀ e ∈ l, e.handle ≠ h) : removeByHandle l h = l := by
  induction l with
  | nil => rfl
  | cons e es ih =>
    have h1 : e.handle ≠ h := hne e (List.mem_cons_self _ _)
    simp only [removeByHandle, h1, if_false]
    rw [ih (fun e2 he2 => hne e2 (List.mem_cons_of_mem _ he2))]

theorem handlesOf_removeByHandle (l : List TableEntry) (h : Nat) :
    handlesOf (removeByHandle l h) = dropNat (handlesOf l) h := by
  induction l with
  | nil => rfl
  | cons e es ih =>
    by_cases h2 : e.handle = h
    · simp only [removeByHandle, h2, if_true, handlesOf, List.map_cons,
        dropNat]
      simp only [handlesOf] at ih
      simp [h2, ih]
    · simp only [removeByHandle, h2, if_false, handlesOf, List.map_cons,
        dropNat]
      simp only [handlesOf] at ih
      simp [h2, ih]

theorem findRoute_mem {rs : List RouteEnt} {pfx : Nat} {r : RouteEnt}
    (h : findRoute rs pfx = some r) : r ∈ rs ∧ r.pfx = pfx := by
  induction rs with
  | nil => simp [findRoute] at h
  | cons r2 rest ih =>
    by_cases h2 : r2.pfx = pfx
    · simp [findRoute, h2] at h
      subst h
      exact ⟨List.mem_cons_self _ _, h2⟩
    · simp only [findRoute, h2, if_false] at h
      rcases ih h with ⟨hm, hk⟩
      exact ⟨List.mem_cons_of_mem _ hm, hk⟩

theorem dropRoute_of_none {rs : List RouteEnt} {pfx : Nat}
    (h : findRoute rs pfx = none) : dropRoute rs pfx = rs := by
  induction rs with
  | nil => rfl
  | cons r rest ih =>
    by_cases h2 : r.pfx = pfx
    · simp [findRoute, h2] at h
    · simp only [findRoute, h2, if_false] at h
      simp [dropRoute, h2, ih h]

theorem dropRoute_sublist (rs : List RouteEnt) (pfx : Nat) :
    List.Sublist (dropRoute rs pfx) rs := by
  induction rs with
  | nil => simp [dropRoute]
  | cons r rest ih =>
    by_cases h2 : r.pfx = pfx
    · simp only [dropRoute, h2, if_true]
      exact ih.cons _
    · simp only [dropRoute, h2, if_false]
      exact ih.cons₂ _

theorem countRefs_append (rs1 rs2 : List RouteEnt) (h : Nat) :
    countRefs (rs1 ++ rs2) h = countRefs rs1 h + countRefs rs2 h := by
  simp [countRefs, List.filter_append]

theorem countRefs_cons (r : RouteEnt) (rs : List RouteEnt) (h : Nat) :
    countRefs (r :: rs) h =
      (if r.handle = h then 1 else 0) + countRefs rs h := by
  by_cases h2 : r.handle = h
  · simp [countRefs, List.filter, h2, Nat.add_comm]
  · simp [countRefs, List.filter, h2]

theorem countRefs_single (r : RouteEnt) (h : Nat) :
    countRefs [r] h = if r.handle = h then 1 else 0 := by
  by_cases h2 : r.handle = h <;> simp [countRefs, List.filter, h2]

theorem countRefs_pos_of_mem {rs : List RouteEnt} {r : RouteEnt}
    (hm : r ∈ rs) : 1 ≤ countRefs rs r.handle := by
  induction rs with
  | nil => simp at hm
  | cons r2 rest ih =>
    rcases List.mem_cons.mp hm with h | h
    · subst h
      simp [countRefs_cons]
    · calc 1 ≤ countRefs rest r.handle := ih h
        _ ≤ countRefs (r2 :: rest) r.handle := by
            rw [countRefs_cons]; omega

theorem mem_removeByHandle {l : List TableEntry} {h0 : Nat} :
    ∀ x ∈ removeByHandle l h0, x ∈ l ∧ x.handle ≠ h0 := by
  induction l with
  | nil => simp [removeByHandle]
  | cons e es ih =>
    intro x hx
    by_cases h2 : e.handle = h0
    · simp only [removeByHandle, h2, if_true] at hx
      rcases ih x hx with ⟨hm, hne⟩
      exact ⟨List.mem_cons_of_mem _ hm, hne⟩
    · simp only [removeByHandle, h2, if_false, List.mem_cons] at hx
      rcases hx with hx | hx
      · subst hx; exact ⟨List.mem_cons_self _ _, h2⟩
      · rcases ih x hx with ⟨hm, hne⟩
        exact ⟨List.mem_cons_of_mem _ hm, hne⟩

theorem mem_removeByHandle_of_ne {l : List TableEntry} {h0 : Nat}
    {x : TableEntry} (hx : x ∈ l) (hne : x.handle ≠ h0) :
    x ∈ removeByHandle l h0 := by
  induction l with
  | nil => simp at hx
  | cons e es ih =>
    rcases List.mem_cons.mp hx with hx | hx
    · subst hx
      simp [removeByHandle, hne]
    · by_cases h2 : e.handle = h0
      · simp only [removeByHandle, h2, if_true]
        exact ih hx
      · simp only [removeByHandle, h2, if_false, List.mem_cons]
        exact Or.inr (ih hx)

theorem eq_of_handle_nodup {l : List TableEntry} {x y : TableEntry}
    (hn : (handlesOf l).Nodup) (hx : x ∈ l) (hy : y ∈ l)
    (hxy : x.handle = y.handle) : x = y := by
  exact List.inj_on_of_nodup_map hn hx hy hxy

theorem eq_of_key_nodup {l : List TableEntry} {x y : TableEntry}
    (hn : (keysOf l).Nodup) (hx : x ∈ l) (hy : y ∈ l)
    (hxy : x.key = y.key) : x = y := by
  exact List.inj_on_of_nodup_map hn hx hy hxy

theorem mem_bumpKey_nodup {l : List TableEntry} {k : Nat} {e : TableEntry}
    (hn : (handlesOf l).Nodup) (hf : findByKey l k = some e) :
    ∀ x ∈ bumpKey l k,
      x = { e with refCount := e.refCount + 1 } ∨
      (x ∈ l ∧ x.handle ≠ e.handle) := by
  induction l with
  | nil => simp [findByKey] at hf
  | cons e0 es ih =>
    simp only [handlesOf, List.map_cons, List.nodup_cons] at hn
    intro x hx
    by_cases h2 : e0.key = k
    · simp only [findByKey, if_pos h2, Option.some.injEq] at hf
      subst hf
      simp only [bumpKey] at hx
      rw [if_pos h2] at hx
      rcases List.mem_cons.mp hx with hx | hx
      · exact Or.inl hx
      · refine Or.inr ⟨List.mem_cons_of_mem _ hx, ?_⟩
        intro hc
        exact hn.1 (hc ▸ (List.mem_map.mpr ⟨x, hx, rfl⟩))
    · simp only [findByKey, h2, if_false] at hf
      simp only [bumpKey, h2, if_false, List.mem_cons] at hx
      have hemem : e ∈ es := (findByKey_mem hf).1
      rcases hx with hx | hx
      · subst hx
        refine Or.inr ⟨List.mem_cons_self _ _, ?_⟩
        intro hc
        exact hn.1 (hc ▸ (List.mem_map.mpr ⟨e, hemem, rfl⟩))
      · rcases ih hn.2 hf x hx with h | ⟨hm, hne⟩
        · exact Or.inl h
        · exact Or.inr ⟨List.mem_cons_of_mem _ hm, hne⟩

theorem mem_decByHandle_nodup {l : List TableEntry} {h0 : Nat}
    {e2 : TableEntry} (hn : (handlesOf l).Nodup)
    (hf : findByHandle l h0 = some e2) :
    ∀ x ∈ decByHandle l h0,
      x = { e2 with refCount := e2.refCount - 1 } ∨
      (x ∈ l ∧ x.handle ≠ h0) := by
  induction l with
  | nil => simp [findByHandle] at hf
  | cons e0 es ih =>
    simp only [handlesOf, List.map_cons, List.nodup_cons] at hn
    intro x hx
    by_cases h2 : e0.handle = h0
    · simp only [findByHandle, if_pos h2, Option.some.injEq] at hf
      subst hf
      simp only [decByHandle] at hx
      rw [if_pos h2] at hx
      rcases List.mem_cons.mp hx with hx | hx
      · exact Or.inl hx
      · refine Or.inr ⟨List.mem_cons_of_mem _ hx, ?_⟩
        intro hc
        rw [← h2] at hc
        exact hn.1 (hc ▸ (List.mem_map.mpr ⟨x, hx, rfl⟩))
    · simp only [findByHandle, h2, if_false] at hf
      simp only [decByHandle, h2, if_false, List.mem_cons] at hx
      rcases hx with hx | hx
      · subst hx
        exact Or.inr ⟨List.mem_cons_self _ _, h2⟩
      · rcases ih hn.2 hf x hx with h | ⟨hm, hne⟩
        · exact Or.inl h
        · exact Or.inr ⟨List.mem_cons_of_mem _ hm, hne⟩

theorem mem_bumpKey_of_keyHandle (k : Nat) {l : List TableEntry} :
    ∀ x ∈ l, ∃ y ∈ bumpKey l k, y.key = x.key ∧ y.handle = x.handle := by
  induction l with
  | nil => simp
  | cons e0 es ih =>
    intro x hx
    by_cases h2 : e0.key = k
    · rcases List.mem_cons.mp hx with hx | hx
      · subst hx
        exact ⟨{ x with refCount := x.refCount + 1 },
          by simp [bumpKey, h2], rfl, rfl⟩
      · exact ⟨x, by simp [bumpKey, h2, hx], rfl, rfl⟩
    · rcases List.mem_cons.mp hx with hx | hx
      · subst hx
        exact ⟨x, by simp [bumpKey, h2], rfl, rfl⟩
      · rcases ih x hx with ⟨y, hy, hk, hh⟩
        exact ⟨y, by simp [bumpKey, h2, hy], hk, hh⟩

theorem mem_decByHandle_of_keyHandle (h0 : Nat) {l : List TableEntry} :
    ∀ x ∈ l, ∃ y ∈ decByHandle l h0, y.key = x.key ∧ y.handle = x.handle := by
  induction l with
  | nil => simp
  | cons e0 es ih =>
    intro x hx
    by_cases h2 : e0.handle = h0
    · rcases List.mem_cons.mp hx with hx | hx
      · subst hx
        exact ⟨{ x with refCount := x.refCount - 1 },
          by simp [decByHandle, h2], rfl, rfl⟩
      · exact ⟨x, by simp [decByHandle, h2, hx], rfl, rfl⟩
    · rcases List.mem_cons.mp hx with hx | hx
      · subst hx
        exact ⟨x, by simp [decByHandle, h2], rfl, rfl⟩
      · rcases ih x hx with ⟨y, hy, hk, hh⟩
        exact ⟨y, by simp [decByHandle, h2, hy], hk, hh⟩

theorem decByHandle_bumpKey_roundtrip {l : List TableEntry} {k : Nat}
    {e : TableEntry} (hn : (handlesOf l).Nodup)
    (hf : findByKey l k = some e) :
    decByHandle (bumpKey l k) e.handle = l := by
  induction l with
  | nil => simp [findByKey] at hf
  | cons e0 es ih =>
    simp only [handlesOf, List.map_cons, List.nodup_cons] at hn
    by_cases h2 : e0.key = k
    · simp only [findByKey, if_pos h2, Option.some.injEq] at hf
      subst hf
      rw [show bumpKey (e0 :: es) k =
          { e0 with refCount := e0.refCount + 1 } :: es from by
        simp only [bumpKey]; rw [if_pos h2]]
      rw [show decByHandle ({ e0 with refCount := e0.refCount + 1 } :: es)
          e0.handle
          = { e0 with refCount := e0.refCount + 1 - 1 } :: es from by
        simp [decByHandle]]
      cases e0
      simp
    · simp only [findByKey, h2, if_false] at hf
      have hemem : e ∈ es := (findByKey_mem hf).1
      have hne : e0.handle ≠ e.handle := by
        intro hc
        exact hn.1 (hc ▸ (List.mem_map.mpr ⟨e, hemem, rfl⟩))
      rw [show bumpKey (e0 :: es) k = e0 :: bumpKey es k from by
        simp only [bumpKey]; rw [if_neg h2]]
      rw [show decByHandle (e0 :: bumpKey es k) e.handle
          = e0 :: decByHandle (bumpKey es k) e.handle from by
        simp only [decByHandle]; rw [if_neg hne]]
      rw [ih hn.2 hf]

theorem findByHandle_bumpKey_hit {l : List TableEntry} {k : Nat}
    {e : TableEntry} (hn : (handlesOf l).Nodup)
    (hf : findByKey l k = some e) :
    findByHandle (bumpKey l k) e.handle =
      some { e with refCount := e.refCount + 1 } := by
  induction l with
  | nil => simp [findByKey] at hf
  | cons e0 es ih =>
    simp only [handlesOf, List.map_cons, List.nodup_cons] at hn
    by_cases h2 : e0.key = k
    · simp only [findByKey, h2, if_true, Option.some.injEq] at hf
      subst hf
      simp [bumpKey, h2, findByHandle]
    · simp only [findByKey, h2, if_false] at hf
      have hemem : e ∈ es := (findByKey_mem hf).1
      have hne : e0.handle ≠ e.handle := by
        intro hc
        exact hn.1 (hc ▸ (List.mem_map.mpr ⟨e, hemem, rfl⟩))
      simp only [bumpKey, h2, if_false, findByHandle, hne, if_false]
      exact ih hn.2 hf

theorem findByHandle_bumpKey_other {l : List TableEntry} {k : Nat}
    {e : TableEntry} {h0 : Nat} (hf : findByKey l k = some e)
    (hne : h0 ≠ e.handle) :
    findByHandle (bumpKey l k) h0 = findByHandle l h0 := by
  induction l with
  | nil => simp [findByKey] at hf
  | cons e0 es ih =>
    by_cases h2 : e0.key = k
    · simp only [findByKey, h2, if_true, Option.some.injEq] at hf
      subst hf
      have : ¬ e0.handle = h0 := fun hc => hne (hc.symm)
      simp [bumpKey, h2, findByHandle, this]
    · simp only [findByKey, h2, if_false] at hf
      by_cases h3 : e0.handle = h0
      · simp [bumpKey, h2, findByHandle, h3]
      · simp only [bumpKey, h2, if_false, findByHandle, h3, if_false]
        exact ih hf

theorem nodup_append_single {α : Type} [DecidableEq α] (l : List α)
    (a : α) : (l ++ [a]).Nodup ↔ l.Nodup ∧ a ∉ l := by
  rw [List.nodup_append]
  constructor
  · rintro ⟨h1, _, h3⟩
    exact ⟨h1, fun hc => h3 hc (by simp)⟩
  · rintro ⟨h1, h2⟩
    refine ⟨h1, List.nodup_singleton a, ?_⟩
    intro x hx hy
    rw [List.mem_singleton] at hy
    subst hy
    exact h2 hx

theorem mem_dropRoute {rs : List RouteEnt} {pfx : Nat} :
    ∀ x ∈ dropRoute rs pfx, x ∈ rs ∧ x.pfx ≠ pfx := by
  induction rs with
  | nil => simp [dropRoute]
  | cons r rest ih =>
    intro x hx
    by_cases h2 : r.pfx = pfx
    · simp only [dropRoute, h2, if_true] at hx
      rcases ih x hx with ⟨hm, hne⟩
      exact ⟨List.mem_cons_of_mem _ hm, hne⟩
    · simp only [dropRoute, h2, if_false, List.mem_cons] at hx
      rcases hx with hx | hx
      · subst hx; exact ⟨List.mem_cons_self _ _, h2⟩
      · rcases ih x hx with ⟨hm, hne⟩
        exact ⟨List.mem_cons_of_mem _ hm, hne⟩

theorem dropRoute_of_forall_ne {rs : List RouteEnt} {pfx : Nat}
    (hne : ∀ x ∈ rs, x.pfx ≠ pfx) : dropRoute rs pfx = rs := by
  induction rs with
  | nil => rfl
  | cons r rest ih =>
    have h1 : r.pfx ≠ pfx := hne r (List.mem_cons_self _ _)
    simp only [dropRoute, h1, if_false]
    rw [ih (fun x hx => hne x (List.mem_cons_of_mem _ hx))]

theorem findRoute_decomp {rs : List RouteEnt} {pfx : Nat} {r : RouteEnt}
    (hf : findRoute rs pfx = some r) :
    ∃ rs1 rs2, rs = rs1 ++ r :: rs2 ∧ (∀ x ∈ rs1, x.pfx ≠ pfx) ∧
      dropRoute rs pfx = rs1 ++ dropRoute (r :: rs2) pfx := by
  induction rs with
  | nil => simp [findRoute] at hf
  | cons r0 rest ih =>
    by_cases h2 : r0.pfx = pfx
    · simp only [findRoute, h2, if_true, Option.some.injEq] at hf
      subst hf
      exact ⟨[], rest, rfl, by simp, rfl⟩
    · simp only [findRoute, h2, if_false] at hf
      rcases ih hf with ⟨rs1, rs2, heq, hall, hdrop⟩
      refine ⟨r0 :: rs1, rs2, by rw [heq]; rfl, ?_, ?_⟩
      · intro x hx
        rcases List.mem_cons.mp hx with hx | hx
        · subst hx; exact h2
        · exact hall x hx
      · rw [show dropRoute (r0 :: rest) pfx = r0 :: dropRoute rest pfx from by
          simp only [dropRoute]; rw [if_neg h2]]
        rw [hdrop]
        rfl

theorem countRefs_dropRoute {rs : List RouteEnt} {pfx : Nat} {r : RouteEnt}
    (hp : (pfxsOf rs).Nodup) (hf : findRoute rs pfx = some r) (h : Nat) :
    countRefs (dropRoute rs pfx) h + (if r.handle = h then 1 else 0) =
      countRefs rs h := by
  rcases findRoute_decomp hf with ⟨rs1, rs2, heq, _, hdrop⟩
  have hrpfx : r.pfx = pfx := (findRoute_mem hf).2
  have hrs2 : ∀ x ∈ rs2, x.pfx ≠ pfx := by
    subst heq
    simp only [pfxsOf, List.map_append, List.map_cons] at hp
    have := List.nodup_middle.mp hp
    simp only [List.nodup_cons, List.mem_append, List.mem_map] at this
    intro x hx hc
    exact this.1 (Or.inr ⟨x, hx, by rw [hc, hrpfx]⟩)
  have hdrop2 : dropRoute (r :: rs2) pfx = rs2 := by
    simp only [dropRoute, hrpfx, if_true]
    exact dropRoute_of_forall_ne hrs2
  rw [hdrop, hdrop2, heq]
  rw [countRefs_append, countRefs_append, countRefs_cons]
  omega

theorem countRefs_eq_zero_iff {rs : List RouteEnt} {h : Nat} :
    countRefs rs h = 0 ↔ ∀ r ∈ rs, r.handle ≠ h := by
  induction rs with
  | nil => simp [countRefs]
  | cons r rest ih =>
    rw [countRefs_cons]
    by_cases h2 : r.handle = h
    · simp [h2]
    · simp [h2, ih]

theorem mapRefs_dropRoute (rs : List RouteEnt) (pfx : Nat) :
    mapRefs (dropRoute rs pfx) = dropRef (mapRefs rs) pfx := by
  induction rs with
  | nil => rfl
  | cons r rest ih =>
    by_cases h2 : r.pfx = pfx
    · simp only [dropRoute, h2, if_true, mapRefs, List.map_cons, dropRef]
      simp only [mapRefs] at ih
      simp [h2, ih]
    · simp only [dropRoute, h2, if_false, mapRefs, List.map_cons, dropRef]
      simp only [mapRefs] at ih
      simp [h2, ih]

theorem mem_sndsOf_mapRefs {rs : List RouteEnt} {h : Nat} :
    h ∈ sndsOf (mapRefs rs) ↔ ∃ r ∈ rs, r.handle = h := by
  simp [sndsOf, mapRefs]

theorem replayRun_append (r : ReplayState) (evs1 evs2 : List HwEvent) :
    replayRun r (evs1 ++ evs2) =
      match replayRun r evs1 with
      | some r1 => replayRun r1 evs2
      | none => none := by
  induction evs1 generalizing r with
  | nil => simp [replayRun]
  | cons ev evs ih =>
    simp only [List.cons_append, replayRun]
    cases replayStep r ev with
    | some r1 => exact ih r1
    | none => rfl

theorem findByHandle_of_mem_nodup {l : List TableEntry} {x : TableEntry}
    (hn : (handlesOf l).Nodup) (hx : x ∈ l) :
    findByHandle l x.handle = some x := by
  induction l with
  | nil => simp at hx
  | cons e0 es ih =>
    simp only [handlesOf, List.map_cons, List.nodup_cons] at hn
    rcases List.mem_cons.mp hx with hx | hx
    · subst hx
      simp [findByHandle]
    · have hne : ¬ e0.handle = x.handle := by
        intro hc
        exact hn.1 (hc ▸ (List.mem_map.mpr ⟨x, hx, rfl⟩))
      simp only [findByHandle, hne, if_false]
      exact ih hn.2 hx

theorem findByKey_of_mem_nodup {l : List TableEntry} {x : TableEntry}
    (hn : (keysOf l).Nodup) (hx : x ∈ l) :
    findByKey l x.key = some x := by
  induction l with
  | nil => simp at hx
  | cons e0 es ih =>
    simp only [keysOf, List.map_cons, List.nodup_cons] at hn
    rcases List.mem_cons.mp hx with hx | hx
    · subst hx
      simp [findByKey]
    · have hne : ¬ e0.key = x.key := by
        intro hc
        exact hn.1 (hc ▸ (List.mem_map.mpr ⟨x, hx, rfl⟩))
      simp only [findByKey, hne, if_false]
      exact ih hn.2 hx

theorem findRoute_eq_none_iff {rs : List RouteEnt} {pfx : Nat} :
    findRoute rs pfx = none ↔ pfx ∉ pfxsOf rs := by
  induction rs with
  | nil => simp [findRoute, pfxsOf]
  | cons r rest ih =>
    by_cases h : r.pfx = pfx
    · simp [findRoute, pfxsOf, h]
    · have hk : ¬ pfx = r.pfx := fun hc => h hc.symm
      simp [findRoute, pfxsOf, h, ih, hk]

theorem not_mem_pfxsOf_dropRoute (rs : List RouteEnt) (pfx : Nat) :
    pfx ∉ pfxsOf (dropRoute rs pfx) := by
  intro hc
  rcases List.mem_map.mp hc with ⟨x, hx, hxe⟩
  exact (mem_dropRoute x hx).2 hxe

theorem mem_handlesOf {l : List TableEntry} {e : TableEntry} (h : e ∈ l) :
    e.handle ∈ handlesOf l :=
  List.mem_map.mpr ⟨e, h, rfl⟩

theorem not_mem_handlesOf_of_fresh {l : List TableEntry} {nh : Nat}
    (hfr : ∀ e ∈ l, e.handle < nh) : nh ∉ handlesOf l := by
  intro hc
  rcases List.mem_map.mp hc with ⟨x, hx, hxe⟩
  exact absurd hxe (Nat.ne_of_lt (hfr x hx))

theorem handlesOf_append (l1 l2 : List TableEntry) :
    handlesOf (l1 ++ l2) = handlesOf l1 ++ handlesOf l2 := by
  simp [handlesOf]

theorem keysOf_append (l1 l2 : List TableEntry) :
    keysOf (l1 ++ l2) = keysOf l1 ++ keysOf l2 := by
  simp [keysOf]

theorem pfxsOf_append (rs1 rs2 : List RouteEnt) :
    pfxsOf (rs1 ++ rs2) = pfxsOf rs1 ++ pfxsOf rs2 := by
  simp [pfxsOf]

theorem mapRefs_append (rs1 rs2 : List RouteEnt) :
    mapRefs (rs1 ++ rs2) = mapRefs rs1 ++ mapRefs rs2 := by
  simp [mapRefs]

theorem keysOf_sublist_of_sublist {l1 l2 : List TableEntry}
    (h : List.Sublist l1 l2) : List.Sublist (keysOf l1) (keysOf l2) :=
  h.map _

theorem handlesOf_sublist_of_sublist {l1 l2 : List TableEntry}
    (h : List.Sublist l1 l2) : List.Sublist (handlesOf l1) (handlesOf l2) :=
  h.map _

theorem pfxsOf_sublist_of_sublist {rs1 rs2 : List RouteEnt}
    (h : List.Sublist rs1 rs2) : List.Sublist (pfxsOf rs1) (pfxsOf rs2) :=
  h.map _

theorem replayRun_create_cons (r : ReplayState) (k h : Nat)
    (evs : List HwEvent) :
    replayRun r (HwEvent.create k h :: evs) =
      replayRun ⟨r.live ++ [h], r.rrefs⟩ evs := by
  simp only [replayRun, replayStep]

theorem replayRun_prog_cons (r : ReplayState) (pfx h : Nat)
    (evs : List HwEvent) (hmem : h ∈ r.live) :
    replayRun r (HwEvent.progRoute pfx h :: evs) =
      replayRun ⟨r.live, dropRef r.rrefs pfx ++ [(pfx, h)]⟩ evs := by
  simp only [replayRun, replayStep]
  rw [if_pos hmem]

theorem replayRun_del_cons (r : ReplayState) (pfx : Nat)
    (evs : List HwEvent) :
    replayRun r (HwEvent.delRouteHw pfx :: evs) =
      replayRun ⟨r.live, dropRef r.rrefs pfx⟩ evs := by
  simp only [replayRun, replayStep]

theorem replayRun_destroy_cons (r : ReplayState) (h : Nat)
    (evs : List HwEvent) (h1 : h ∉ sndsOf r.rrefs) (h2 : h ∈ r.live) :
    replayRun r (HwEvent.destroy h :: evs) =
      replayRun ⟨dropNat r.live h, r.rrefs⟩ evs := by
  simp only [replayRun, replayStep]
  rw [if_neg h1, if_pos h2]

theorem inv_removeRouteOp {s : EngineState} (hInv : Inv s) (pfx : Nat) :
    Inv (removeRouteOp s pfx).1 ∧ (removeRouteOp s pfx).2 = none := by
  rcases hr : findRoute s.routes pfx with _ | r
  · constructor
    · simpa only [removeRouteOp, hr] using hInv
    · simp [removeRouteOp, hr]
  · obtain ⟨hrmem, hrpfx⟩ := findRoute_mem hr
    obtain ⟨e2, he2mem, he2key, he2h⟩ := hInv.live r hrmem
    have hfb : findByHandle s.table.entries r.handle = some e2 := by
      rw [← he2h]
      exact findByHandle_of_mem_nodup hInv.handlesNodup he2mem
    have hc2 : e2.refCount = countRefs s.routes r.handle := by
      rw [← he2h]; exact hInv.counts e2 he2mem
    have hpos2 : 1 ≤ e2.refCount := hInv.pos e2 he2mem
    have hdropCount := countRefs_dropRoute hInv.pfxNodup hr
    have hcount1 : countRefs (dropRoute s.routes pfx) r.handle + 1 =
        countRefs s.routes r.handle := by
      have := hdropCount r.handle
      simpa using this
    have hcountNe : ∀ h2, h2 ≠ r.handle →
        countRefs (dropRoute s.routes pfx) h2 = countRefs s.routes h2 := by
      intro h2 hne
      have := hdropCount h2
      rwa [if_neg (fun hc => hne hc.symm), Nat.add_zero] at this
    by_cases hone : e2.refCount = 1
    · -- last reference: the entry is destroyed and removed
      have hzero : countRefs (dropRoute s.routes pfx) r.handle = 0 := by
        omega
      have hallne : ∀ q ∈ dropRoute s.routes pfx, q.handle ≠ r.handle :=
        countRefs_eq_zero_iff.mp hzero
      have hrel : release s.table r.handle =
          .ok ({ s.table with
                  entries := removeByHandle s.table.entries r.handle },
               [HwEvent.destroy r.handle]) := by
        simp [release, hfb, hone]
      have hres : removeRouteOp s pfx =
          (⟨{ s.table with
               entries := removeByHandle s.table.entries r.handle },
            dropRoute s.routes pfx,
            s.events ++ [HwEvent.delRouteHw pfx] ++
              [HwEvent.destroy r.handle]⟩, none) := by
        simp [removeRouteOp, hr, hrel]
      rw [hres]
      refine ⟨⟨?_, ?_, ?_, ?_, ?_, ?_, ?_, ?_⟩, rfl⟩
      · exact hInv.keysNodup.sublist
          (keysOf_sublist_of_sublist (removeByHandle_sublist _ _))
      · exact hInv.handlesNodup.sublist
          (handlesOf_sublist_of_sublist (removeByHandle_sublist _ _))
      · intro x hx
        exact hInv.fresh x (mem_removeByHandle x hx).1
      · intro x hx
        exact hInv.pos x (mem_removeByHandle x hx).1
      · intro x hx
        obtain ⟨hxl, hxne⟩ := mem_removeByHandle x hx
        rw [hInv.counts x hxl]
        exact (hcountNe x.handle hxne).symm
      · intro r' hr'
        obtain ⟨hr'mem, _⟩ := mem_dropRoute r' hr'
        obtain ⟨e', he'mem, he'key, he'h⟩ := hInv.live r' hr'mem
        have hne' : e'.handle ≠ r.handle := by
          rw [he'h]
          exact hallne r' hr'
        exact ⟨e', mem_removeByHandle_of_ne he'mem hne', he'key, he'h⟩
      · exact hInv.pfxNodup.sublist
          (pfxsOf_sublist_of_sublist (dropRoute_sublist _ _))
      · have hnotin : r.handle ∉ sndsOf (mapRefs (dropRoute s.routes pfx)) := by
          rw [mem_sndsOf_mapRefs]
          rintro ⟨q, hq, hqh⟩
          exact (hallne q hq) hqh
        have hin : r.handle ∈ handlesOf s.table.entries :=
          he2h ▸ mem_handlesOf he2mem
        rw [show s.events ++ [HwEvent.delRouteHw pfx] ++
              [HwEvent.destroy r.handle] =
            s.events ++
              [HwEvent.delRouteHw pfx, HwEvent.destroy r.handle] from by simp]
        rw [replayRun_append, hInv.replay]
        show replayRun (absOf s)
            [HwEvent.delRouteHw pfx, HwEvent.destroy r.handle] = _
        rw [show replayRun (absOf s)
              [HwEvent.delRouteHw pfx, HwEvent.destroy r.handle] =
            replayRun ⟨handlesOf s.table.entries,
              mapRefs (dropRoute s.routes pfx)⟩
              [HwEvent.destroy r.handle] from by
          simp only [replayRun, replayStep, absOf, mapRefs_dropRoute]]
        simp only [replayRun, replayStep]
        rw [if_neg hnotin, if_pos hin]
        simp [absOf, handlesOf_removeByHandle]
    · -- further references remain: only the count is decremented
      have htwo : 2 ≤ e2.refCount := by omega
      have hnz : ¬ e2.refCount = 0 := by omega
      have hrel : release s.table r.handle =
          .ok ({ s.table with
                  entries := decByHandle s.table.entries r.handle }, []) := by
        simp [release, hfb, hnz, hone]
      have hres : removeRouteOp s pfx =
          (⟨{ s.table with
               entries := decByHandle s.table.entries r.handle },
            dropRoute s.routes pfx,
            s.events ++ [HwEvent.delRouteHw pfx]⟩, none) := by
        simp [removeRouteOp, hr, hrel]
      rw [hres]
      refine ⟨⟨?_, ?_, ?_, ?_, ?_, ?_, ?_, ?_⟩, rfl⟩
      · rw [show keysOf (decByHandle s.table.entries r.handle) =
            keysOf s.table.entries from keysOf_decByHandle _ _]
        exact hInv.keysNodup
      · rw [show handlesOf (decByHandle s.table.entries r.handle) =
            handlesOf s.table.entries from handlesOf_decByHandle _ _]
        exact hInv.handlesNodup
      · intro x hx
        rcases mem_decByHandle_nodup hInv.handlesNodup hfb x hx with
          hx2 | ⟨hxl, _⟩
        · subst hx2
          exact hInv.fresh e2 he2mem
        · exact hInv.fresh x hxl
      · intro x hx
        rcases mem_decByHandle_nodup hInv.handlesNodup hfb x hx with
          hx2 | ⟨hxl, _⟩
        · subst hx2
          simp only []
          omega
        · exact hInv.pos x hxl
      · intro x hx
        rcases mem_decByHandle_nodup hInv.handlesNodup hfb x hx with
          hx2 | ⟨hxl, hxne⟩
        · subst hx2
          show e2.refCount - 1 = countRefs (dropRoute s.routes pfx) e2.handle
          rw [he2h]
          omega
        · rw [hInv.counts x hxl]
          exact (hcountNe x.handle hxne).symm
      · intro r' hr'
        obtain ⟨hr'mem, _⟩ := mem_dropRoute r' hr'
        obtain ⟨e', he'mem, he'key, he'h⟩ := hInv.live r' hr'mem
        obtain ⟨y, hy, hyk, hyh⟩ :=
          mem_decByHandle_of_keyHandle r.handle e' he'mem
        exact ⟨y, hy, by rw [hyk, he'key], by rw [hyh, he'h]⟩
      · exact hInv.pfxNodup.sublist
          (pfxsOf_sublist_of_sublist (dropRoute_sublist _ _))
      · rw [replayRun_append, hInv.replay]
        simp only [replayRun, replayStep, absOf, mapRefs_dropRoute,
          handlesOf_decByHandle]

theorem inv_programRoute_hit {s : EngineState} (hInv : Inv s)
    (pfx k : Nat) {e : TableEntry}
    (hfk : findByKey s.table.entries k = some e) :
    Inv (programRoute allOk s pfx k).1 ∧
      (programRoute allOk s pfx k).2 = none := by
  obtain ⟨hemem, hekey⟩ := findByKey_mem hfk
  have hrc : referenceOrCreateF allOk s.table k =
      .ok (e.handle,
           { s.table with entries := bumpKey s.table.entries k }, []) := by
    simp [referenceOrCreateF, referenceOrCreate, hfk]
  have hmemBump : { e with refCount := e.refCount + 1 } ∈
      bumpKey s.table.entries k :=
    (findByHandle_mem (findByHandle_bumpKey_hit hInv.handlesNodup hfk)).1
  have happ : ∀ (H h2 : Nat) (D : List RouteEnt),
      countRefs (D ++ [⟨pfx, k, H⟩]) h2 =
        countRefs D h2 + (if H = h2 then 1 else 0) := by
    intro H h2 D
    simp [countRefs_append, countRefs_single]
  rcases hr : findRoute s.routes pfx with _ | r
  · -- fresh prefix, shared key: no backend call, reference count bumped
    have hres : programRoute allOk s pfx k =
        (⟨{ s.table with entries := bumpKey s.table.entries k },
          s.routes ++ [⟨pfx, k, e.handle⟩],
          s.events ++ [HwEvent.progRoute pfx e.handle]⟩, none) := by
      simp only [programRoute]
      rw [hrc]
      simp [allOk, hr, dropRoute_of_none hr]
    rw [hres]
    refine ⟨⟨?_, ?_, ?_, ?_, ?_, ?_, ?_, ?_⟩, rfl⟩
    · rw [show keysOf (bumpKey s.table.entries k) = keysOf s.table.entries
        from keysOf_bumpKey _ _]
      exact hInv.keysNodup
    · rw [show handlesOf (bumpKey s.table.entries k) =
          handlesOf s.table.entries from handlesOf_bumpKey _ _]
      exact hInv.handlesNodup
    · intro x hx
      rcases mem_bumpKey_nodup hInv.handlesNodup hfk x hx with hx2 | ⟨hxl, _⟩
      · subst hx2
        exact hInv.fresh e hemem
      · exact hInv.fresh x hxl
    · intro x hx
      rcases mem_bumpKey_nodup hInv.handlesNodup hfk x hx with hx2 | ⟨hxl, _⟩
      · subst hx2
        simp
      · exact hInv.pos x hxl
    · intro x hx
      rcases mem_bumpKey_nodup hInv.handlesNodup hfk x hx with
        hx2 | ⟨hxl, hxne⟩
      · subst hx2
        rw [happ]
        show e.refCount + 1 = countRefs s.routes e.handle + _
        rw [if_pos rfl, ← hInv.counts e hemem]
      · rw [happ, if_neg (fun hc => hxne hc.symm), Nat.add_zero]
        exact hInv.counts x hxl
    · intro r' hr'
      rcases List.mem_append.mp hr' with hr' | hr'
      · obtain ⟨e', he'mem, he'key, he'h⟩ := hInv.live r' hr'
        obtain ⟨y, hy, hyk, hyh⟩ :=
          mem_bumpKey_of_keyHandle k e' he'mem
        exact ⟨y, hy, by rw [hyk, he'key], by rw [hyh, he'h]⟩
      · rw [List.mem_singleton] at hr'
        subst hr'
        exact ⟨{ e with refCount := e.refCount + 1 }, hmemBump, hekey, rfl⟩
    · rw [pfxsOf_append]
      rw [show pfxsOf [⟨pfx, k, e.handle⟩] = [pfx] from rfl]
      rw [nodup_append_single]
      exact ⟨hInv.pfxNodup, findRoute_eq_none_iff.mp hr⟩
    · rw [replayRun_append, hInv.replay]
      show replayRun ⟨handlesOf s.table.entries, mapRefs s.routes⟩
          [HwEvent.progRoute pfx e.handle] = _
      rw [replayRun_prog_cons _ _ _ _ (mem_handlesOf hemem)]
      simp only [replayRun, absOf, Option.some.injEq, ReplayState.mk.injEq]
      constructor
      · rw [handlesOf_bumpKey]
      · rw [← mapRefs_dropRoute, dropRoute_of_none hr, mapRefs_append]
        rfl
  · -- existing prefix: the old reference is released after programming
    obtain ⟨hrmem, hrpfx⟩ := findRoute_mem hr
    obtain ⟨e2, he2mem, he2key, he2h⟩ := hInv.live r hrmem
    have hfb : findByHandle s.table.entries r.handle = some e2 := by
      rw [← he2h]
      exact findByHandle_of_mem_nodup hInv.handlesNodup he2mem
    have hc2 : e2.refCount = countRefs s.routes r.handle := by
      rw [← he2h]; exact hInv.counts e2 he2mem
    have hpos2 : 1 ≤ e2.refCount := hInv.pos e2 he2mem
    have hdropCount := countRefs_dropRoute hInv.pfxNodup hr
    have hcount1 : countRefs (dropRoute s.routes pfx) r.handle + 1 =
        countRefs s.routes r.handle := by
      have := hdropCount r.handle
      simpa using this
    have hcountNe : ∀ h2, h2 ≠ r.handle →
        countRefs (dropRoute s.routes pfx) h2 = countRefs s.routes h2 := by
      intro h2 hne
      have := hdropCount h2
      rwa [if_neg (fun hc => hne hc.symm), Nat.add_zero] at this
    by_cases hsame : r.handle = e.handle
    · -- the route re-references the same object: bump then decrement
      have he2e : e2 = e := by
        refine eq_of_handle_nodup hInv.handlesNodup he2mem hemem ?_
        rw [he2h, hsame]
      have hfb2 : findByHandle (bumpKey s.table.entries k) r.handle =
          some { e with refCount := e.refCount + 1 } := by
        rw [hsame]
        exact findByHandle_bumpKey_hit hInv.handlesNodup hfk
      have hrel : release { s.table with
              entries := bumpKey s.table.entries k } r.handle =
          .ok ({ s.table with
                  entries := decByHandle (bumpKey s.table.entries k)
                    r.handle }, []) := by
        have h1 : ¬ e.refCount + 1 = 1 := by
          have := hInv.pos e hemem
          omega
        simp [release, hfb2, h1]
      have hback : decByHandle (bumpKey s.table.entries k) r.handle =
          s.table.entries := by
        rw [hsame]
        exact decByHandle_bumpKey_roundtrip hInv.handlesNodup hfk
      have hres : programRoute allOk s pfx k =
          (⟨{ s.table with
               entries := decByHandle (bumpKey s.table.entries k) r.handle },
            dropRoute s.routes pfx ++ [⟨pfx, k, e.handle⟩],
            s.events ++ [HwEvent.progRoute pfx e.handle]⟩, none) := by
        simp only [programRoute]
        rw [hrc]
        simp [allOk, hr, hrel]
      rw [hres]
      refine ⟨⟨?_, ?_, ?_, ?_, ?_, ?_, ?_, ?_⟩, rfl⟩
      · rw [hback]; exact hInv.keysNodup
      · rw [hback]; exact hInv.handlesNodup
      · rw [hback]; exact hInv.fresh
      · rw [hback]; exact hInv.pos
      · rw [hback]
        intro x hx
        rw [happ, hInv.counts x hx]
        by_cases hxe : e.handle = x.handle
        · rw [if_pos hxe, ← hxe, ← hsame]
          omega
        · rw [if_neg hxe, Nat.add_zero,
            hcountNe x.handle (fun hc => hxe (hc.trans hsame).symm)]
      · rw [hback]
        intro r' hr'
        rcases List.mem_append.mp hr' with hr' | hr'
        · exact hInv.live r' (mem_dropRoute r' hr').1
        · rw [List.mem_singleton] at hr'
          subst hr'
          exact ⟨e, hemem, hekey, rfl⟩
      · rw [pfxsOf_append]
        rw [show pfxsOf [⟨pfx, k, e.handle⟩] = [pfx] from rfl]
        rw [nodup_append_single]
        exact ⟨hInv.pfxNodup.sublist
          (pfxsOf_sublist_of_sublist (dropRoute_sublist _ _)),
          not_mem_pfxsOf_dropRoute _ _⟩
      · rw [replayRun_append, hInv.replay]
        show replayRun ⟨handlesOf s.table.entries, mapRefs s.routes⟩
            [HwEvent.progRoute pfx e.handle] = _
        rw [replayRun_prog_cons _ _ _ _ (mem_handlesOf hemem)]
        simp only [replayRun, absOf, Option.some.injEq, ReplayState.mk.injEq]
        constructor
        · rw [hback]
        · rw [mapRefs_append, ← mapRefs_dropRoute]
          rfl
    · -- the route moves to a different object; release the old one
      have hfb2 : findByHandle (bumpKey s.table.entries k) r.handle =
          some e2 := by
        rw [findByHandle_bumpKey_other hfk hsame]
        exact hfb
      have hnBump : (handlesOf (bumpKey s.table.entries k)).Nodup := by
        rw [handlesOf_bumpKey]; exact hInv.handlesNodup
      by_cases hone : e2.refCount = 1
      · -- the old object loses its last reference and is destroyed
        have hzero : countRefs (dropRoute s.routes pfx) r.handle = 0 := by
          omega
        have hallne : ∀ q ∈ dropRoute s.routes pfx, q.handle ≠ r.handle :=
          countRefs_eq_zero_iff.mp hzero
        have hrel : release { s.table with
                entries := bumpKey s.table.entries k } r.handle =
            .ok ({ s.table with
                    entries := removeByHandle (bumpKey s.table.entries k)
                      r.handle },
                 [HwEvent.destroy r.handle]) := by
          simp [release, hfb2, hone]
        have hres : programRoute allOk s pfx k =
            (⟨{ s.table with
                 entries := removeByHandle (bumpKey s.table.entries k)
                   r.handle },
              dropRoute s.routes pfx ++ [⟨pfx, k, e.handle⟩],
              s.events ++ [HwEvent.progRoute pfx e.handle,
                HwEvent.destroy r.handle]⟩, none) := by
          simp only [programRoute]
          rw [hrc]
          simp [allOk, hr, hrel]
        rw [hres]
        refine ⟨⟨?_, ?_, ?_, ?_, ?_, ?_, ?_, ?_⟩, rfl⟩
        · refine List.Nodup.sublist
            (keysOf_sublist_of_sublist (removeByHandle_sublist _ _)) ?_
          rw [keysOf_bumpKey]
          exact hInv.keysNodup
        · refine List.Nodup.sublist
            (handlesOf_sublist_of_sublist (removeByHandle_sublist _ _)) ?_
          exact hnBump
        · intro x hx
          rcases mem_bumpKey_nodup hInv.handlesNodup hfk x
              (mem_removeByHandle x hx).1 with hx2 | ⟨hxl, _⟩
          · subst hx2
            exact hInv.fresh e hemem
          · exact hInv.fresh x hxl
        · intro x hx
          rcases mem_bumpKey_nodup hInv.handlesNodup hfk x
              (mem_removeByHandle x hx).1 with hx2 | ⟨hxl, _⟩
          · subst hx2
            simp
          · exact hInv.pos x hxl
        · intro x hx
          obtain ⟨hxb, hxner⟩ := mem_removeByHandle x hx
          rcases mem_bumpKey_nodup hInv.handlesNodup hfk x hxb with
            hx2 | ⟨hxl, hxne⟩
          · subst hx2
            rw [happ]
            show e.refCount + 1 = countRefs (dropRoute s.routes pfx)
              e.handle + _
            rw [if_pos rfl,
              hcountNe e.handle (fun hc => hsame hc.symm),
              ← hInv.counts e hemem]
          · rw [happ, if_neg (fun hc => hxne hc.symm), Nat.add_zero,
              hcountNe x.handle hxner]
            exact hInv.counts x hxl
        · intro r' hr'
          rcases List.mem_append.mp hr' with hr' | hr'
          · obtain ⟨hr'mem, _⟩ := mem_dropRoute r' hr'
            obtain ⟨e', he'mem, he'key, he'h⟩ := hInv.live r' hr'mem
            obtain ⟨y, hy, hyk, hyh⟩ :=
              mem_bumpKey_of_keyHandle k e' he'mem
            refine ⟨y, mem_removeByHandle_of_ne hy ?_,
              by rw [hyk, he'key], by rw [hyh, he'h]⟩
            rw [hyh, he'h]
            exact hallne r' hr'
          · rw [List.mem_singleton] at hr'
            subst hr'
            refine ⟨{ e with refCount := e.refCount + 1 },
              mem_removeByHandle_of_ne hmemBump ?_, hekey, rfl⟩
            show e.handle ≠ r.handle
            exact fun hc => hsame hc.symm
        · rw [pfxsOf_append]
          rw [show pfxsOf [⟨pfx, k, e.handle⟩] = [pfx] from rfl]
          rw [nodup_append_single]
          exact ⟨hInv.pfxNodup.sublist
            (pfxsOf_sublist_of_sublist (dropRoute_sublist _ _)),
            not_mem_pfxsOf_dropRoute _ _⟩
        · rw [replayRun_append, hInv.replay]
          show replayRun ⟨handlesOf s.table.entries, mapRefs s.routes⟩
              [HwEvent.progRoute pfx e.handle, HwEvent.destroy r.handle] = _
          rw [replayRun_prog_cons _ _ _ _ (mem_handlesOf hemem)]
          have hnotin : r.handle ∉
              sndsOf (dropRef (mapRefs s.routes) pfx ++ [(pfx, e.handle)]) := by
            rw [← mapRefs_dropRoute]
            simp only [sndsOf, List.map_append, List.mem_append]
            rintro (hc | hc)
            · rcases List.mem_map.mp hc with ⟨q, hq, hqh⟩
              rcases List.mem_map.mp hq with ⟨r2, hr2, rfl⟩
              exact hallne r2 hr2 hqh
            · simp only [List.map_cons, List.map_nil,
                List.mem_singleton] at hc
              exact hsame hc
          rw [replayRun_destroy_cons _ _ _ hnotin
            (he2h ▸ mem_handlesOf he2mem :
              r.handle ∈ handlesOf s.table.entries)]
          simp only [replayRun, absOf, Option.some.injEq, ReplayState.mk.injEq]
          constructor
          · rw [handlesOf_removeByHandle, handlesOf_bumpKey]
          · rw [mapRefs_append, ← mapRefs_dropRoute]
            rfl
      · -- further references to the old object remain: decrement only
        have htwo : 2 ≤ e2.refCount := by omega
        have hnz : ¬ e2.refCount = 0 := by omega
        have hrel : release { s.table with
                entries := bumpKey s.table.entries k } r.handle =
            .ok ({ s.table with
                    entries := decByHandle (bumpKey s.table.entries k)
                      r.handle }, []) := by
          simp [release, hfb2, hnz, hone]
        have hres : programRoute allOk s pfx k =
            (⟨{ s.table with
                 entries := decByHandle (bumpKey s.table.entries k)
                   r.handle },
              dropRoute s.routes pfx ++ [⟨pfx, k, e.handle⟩],
              s.events ++ [HwEvent.progRoute pfx e.handle]⟩, none) := by
          simp only [programRoute]
          rw [hrc]
          simp [allOk, hr, hrel]
        rw [hres]
        refine ⟨⟨?_, ?_, ?_, ?_, ?_, ?_, ?_, ?_⟩, rfl⟩
        · rw [keysOf_decByHandle, keysOf_bumpKey]
          exact hInv.keysNodup
        · rw [handlesOf_decByHandle, handlesOf_bumpKey]
          exact hInv.handlesNodup
        · intro x hx
          rcases mem_decByHandle_nodup hnBump hfb2 x hx with hx2 | ⟨hxb, _⟩
          · subst hx2
            exact hInv.fresh e2 he2mem
          · rcases mem_bumpKey_nodup hInv.handlesNodup hfk x hxb with
              hx2 | ⟨hxl, _⟩
            · subst hx2
              exact hInv.fresh e hemem
            · exact hInv.fresh x hxl
        · intro x hx
          rcases mem_decByHandle_nodup hnBump hfb2 x hx with hx2 | ⟨hxb, _⟩
          · subst hx2
            show 1 ≤ e2.refCount - 1
            omega
          · rcases mem_bumpKey_nodup hInv.handlesNodup hfk x hxb with
              hx2 | ⟨hxl, _⟩
            · subst hx2
              simp
            · exact hInv.pos x hxl
        · intro x hx
          rcases mem_decByHandle_nodup hnBump hfb2 x hx with
            hx2 | ⟨hxb, hxner⟩
          · subst hx2
            rw [happ]
            show e2.refCount - 1 =
              countRefs (dropRoute s.routes pfx) e2.handle + _
            rw [he2h, if_neg (fun hc => hsame hc.symm), Nat.add_zero]
            omega
          · rcases mem_bumpKey_nodup hInv.handlesNodup hfk x hxb with
              hx2 | ⟨hxl, hxne⟩
            · subst hx2
              rw [happ]
              show e.refCount + 1 = countRefs (dropRoute s.routes pfx)
                e.handle + _
              rw [if_pos rfl,
                hcountNe e.handle (fun hc => hsame hc.symm),
                ← hInv.counts e hemem]
            · rw [happ, if_neg (fun hc => hxne hc.symm), Nat.add_zero,
                hcountNe x.handle hxner]
              exact hInv.counts x hxl
        · intro r' hr'
          rcases List.mem_append.mp hr' with hr' | hr'
          · obtain ⟨hr'mem, _⟩ := mem_dropRoute r' hr'
            obtain ⟨e', he'mem, he'key, he'h⟩ := hInv.live r' hr'mem
            obtain ⟨y, hy, hyk, hyh⟩ :=
              mem_bumpKey_of_keyHandle k e' he'mem
            obtain ⟨z, hz, hzk, hzh⟩ :=
              mem_decByHandle_of_keyHandle r.handle y hy
            exact ⟨z, hz, by rw [hzk, hyk, he'key],
              by rw [hzh, hyh, he'h]⟩
          · rw [List.mem_singleton] at hr'
            subst hr'
            obtain ⟨z, hz, hzk, hzh⟩ :=
              mem_decByHandle_of_keyHandle r.handle
                { e with refCount := e.refCount + 1 } hmemBump
            exact ⟨z, hz, by rw [hzk]; exact hekey, by rw [hzh]⟩
        · rw [pfxsOf_append]
          rw [show pfxsOf [⟨pfx, k, e.handle⟩] = [pfx] from rfl]
          rw [nodup_append_single]
          exact ⟨hInv.pfxNodup.sublist
            (pfxsOf_sublist_of_sublist (dropRoute_sublist _ _)),
            not_mem_pfxsOf_dropRoute _ _⟩
        · rw [replayRun_append, hInv.replay]
          show replayRun ⟨handlesOf s.table.entries, mapRefs s.routes⟩
              [HwEvent.progRoute pfx e.handle] = _
          rw [replayRun_prog_cons _ _ _ _ (mem_handlesOf hemem)]
          simp only [replayRun, absOf, Option.some.injEq, ReplayState.mk.injEq]
          constructor
          · rw [handlesOf_decByHandle, handlesOf_bumpKey]
          · rw [mapRefs_append, ← mapRefs_dropRoute]
            rfl

theorem inv_programRoute_miss {s : EngineState} (hInv : Inv s)
    (pfx k : Nat) (hfk : findByKey s.table.entries k = none) :
    Inv (programRoute allOk s pfx k).1 ∧
      (programRoute allOk s pfx k).2 = none := by
  have hrc : referenceOrCreateF allOk s.table k =
      .ok (s.table.nextHandle,
           ⟨s.table.entries ++ [⟨k, s.table.nextHandle, 1⟩],
            s.table.nextHandle + 1⟩,
           [HwEvent.create k s.table.nextHandle]) := by
    simp [referenceOrCreateF, referenceOrCreate, hfk, allOk]
  have hkNot : k ∉ keysOf s.table.entries := findByKey_eq_none_iff.mp hfk
  have hnhNot : s.table.nextHandle ∉ handlesOf s.table.entries :=
    not_mem_handlesOf_of_fresh hInv.fresh
  have hcrs0 : countRefs s.routes s.table.nextHandle = 0 := by
    rw [countRefs_eq_zero_iff]
    intro r' hr'
    obtain ⟨e', he'mem, _, he'h⟩ := hInv.live r' hr'
    rw [← he'h]
    exact Nat.ne_of_lt (hInv.fresh e' he'mem)
  have happ : ∀ (H h2 : Nat) (D : List RouteEnt),
      countRefs (D ++ [⟨pfx, k, H⟩]) h2 =
        countRefs D h2 + (if H = h2 then 1 else 0) := by
    intro H h2 D
    simp [countRefs_append, countRefs_single]
  have hkeysN :
      (keysOf (s.table.entries ++ [⟨k, s.table.nextHandle, 1⟩])).Nodup := by
    rw [keysOf_append]
    rw [show keysOf [⟨k, s.table.nextHandle, 1⟩] = [k] from rfl]
    rw [nodup_append_single]
    exact ⟨hInv.keysNodup, hkNot⟩
  have hhandN :
      (handlesOf (s.table.entries ++
        [⟨k, s.table.nextHandle, 1⟩])).Nodup := by
    rw [handlesOf_append]
    rw [show handlesOf [⟨k, s.table.nextHandle, 1⟩] =
      [s.table.nextHandle] from rfl]
    rw [nodup_append_single]
    exact ⟨hInv.handlesNodup, hnhNot⟩
  rcases hr : findRoute s.routes pfx with _ | r
  · -- a brand new prefix referencing a brand new object
    have hres : programRoute allOk s pfx k =
        (⟨⟨s.table.entries ++ [⟨k, s.table.nextHandle, 1⟩],
           s.table.nextHandle + 1⟩,
          s.routes ++ [⟨pfx, k, s.table.nextHandle⟩],
          s.events ++ [HwEvent.create k s.table.nextHandle,
            HwEvent.progRoute pfx s.table.nextHandle]⟩, none) := by
      simp only [programRoute]
      rw [hrc]
      simp [allOk, hr, dropRoute_of_none hr]
    rw [hres]
    refine ⟨⟨?_, ?_, ?_, ?_, ?_, ?_, ?_, ?_⟩, rfl⟩
    · exact hkeysN
    · exact hhandN
    · intro x hx
      rcases List.mem_append.mp hx with hx | hx
      · exact Nat.lt_succ_of_lt (hInv.fresh x hx)
      · rw [List.mem_singleton] at hx
        subst hx
        exact Nat.lt_succ_self _
    · intro x hx
      rcases List.mem_append.mp hx with hx | hx
      · exact hInv.pos x hx
      · rw [List.mem_singleton] at hx
        subst hx
        exact Nat.le_refl 1
    · intro x hx
      rcases List.mem_append.mp hx with hx | hx
      · rw [happ, if_neg (fun hc : s.table.nextHandle = x.handle =>
          (Nat.ne_of_lt (hInv.fresh x hx)) hc.symm), Nat.add_zero]
        exact hInv.counts x hx
      · rw [List.mem_singleton] at hx
        subst hx
        rw [happ]
        show 1 = countRefs s.routes s.table.nextHandle + _
        rw [if_pos rfl, hcrs0]
    · intro r' hr'
      rcases List.mem_append.mp hr' with hr' | hr'
      · obtain ⟨e', he'mem, he'key, he'h⟩ := hInv.live r' hr'
        exact ⟨e', List.mem_append_left _ he'mem, he'key, he'h⟩
      · rw [List.mem_singleton] at hr'
        subst hr'
        exact ⟨⟨k, s.table.nextHandle, 1⟩,
          List.mem_append_right _ (List.mem_singleton.mpr rfl), rfl, rfl⟩
    · rw [pfxsOf_append]
      rw [show pfxsOf [⟨pfx, k, s.table.nextHandle⟩] = [pfx] from rfl]
      rw [nodup_append_single]
      exact ⟨hInv.pfxNodup, findRoute_eq_none_iff.mp hr⟩
    · rw [replayRun_append, hInv.replay]
      show replayRun ⟨handlesOf s.table.entries, mapRefs s.routes⟩
          [HwEvent.create k s.table.nextHandle,
           HwEvent.progRoute pfx s.table.nextHandle] = _
      rw [replayRun_create_cons]
      rw [replayRun_prog_cons _ _ _ _
        (List.mem_append_right _ (List.mem_singleton.mpr rfl))]
      simp only [replayRun, absOf, Option.some.injEq, ReplayState.mk.injEq]
      constructor
      · rw [handlesOf_append]
        rfl
      · rw [← mapRefs_dropRoute, dropRoute_of_none hr, mapRefs_append]
        rfl
  · -- the prefix moves from its old next hop to a brand new object
    obtain ⟨hrmem, hrpfx⟩ := findRoute_mem hr
    obtain ⟨e2, he2mem, he2key, he2h⟩ := hInv.live r hrmem
    have hfb : findByHandle s.table.entries r.handle = some e2 := by
      rw [← he2h]
      exact findByHandle_of_mem_nodup hInv.handlesNodup he2mem
    have hfb2 : findByHandle
        (s.table.entries ++ [⟨k, s.table.nextHandle, 1⟩]) r.handle =
        some e2 := by
      rw [findByHandle_append, hfb]
    have hne0 : r.handle ≠ s.table.nextHandle := by
      rw [← he2h]
      exact Nat.ne_of_lt (hInv.fresh e2 he2mem)
    have hc2 : e2.refCount = countRefs s.routes r.handle := by
      rw [← he2h]; exact hInv.counts e2 he2mem
    have hpos2 : 1 ≤ e2.refCount := hInv.pos e2 he2mem
    have hdropCount := countRefs_dropRoute hInv.pfxNodup hr
    have hcount1 : countRefs (dropRoute s.routes pfx) r.handle + 1 =
        countRefs s.routes r.handle := by
      have := hdropCount r.handle
      simpa using this
    have hcountNe : ∀ h2, h2 ≠ r.handle →
        countRefs (dropRoute s.routes pfx) h2 = countRefs s.routes h2 := by
      intro h2 hne
      have := hdropCount h2
      rwa [if_neg (fun hc => hne hc.symm), Nat.add_zero] at this
    by_cases hone : e2.refCount = 1
    · -- the old object loses its last reference and is destroyed
      have hzero : countRefs (dropRoute s.routes pfx) r.handle = 0 := by
        omega
      have hallne : ∀ q ∈ dropRoute s.routes pfx, q.handle ≠ r.handle :=
        countRefs_eq_zero_iff.mp hzero
      have hrel : release
          (⟨s.table.entries ++ [⟨k, s.table.nextHandle, 1⟩],
            s.table.nextHandle + 1⟩ : TableState) r.handle =
          .ok (⟨removeByHandle
                  (s.table.entries ++ [⟨k, s.table.nextHandle, 1⟩]) r.handle,
                s.table.nextHandle + 1⟩,
               [HwEvent.destroy r.handle]) := by
        simp [release, hfb2, hone]
      have hres : programRoute allOk s pfx k =
          (⟨⟨removeByHandle
               (s.table.entries ++ [⟨k, s.table.nextHandle, 1⟩]) r.handle,
             s.table.nextHandle + 1⟩,
            dropRoute s.routes pfx ++ [⟨pfx, k, s.table.nextHandle⟩],
            s.events ++ [HwEvent.create k s.table.nextHandle,
              HwEvent.progRoute pfx s.table.nextHandle,
              HwEvent.destroy r.handle]⟩, none) := by
        simp only [programRoute]
        rw [hrc]
        simp [allOk, hr, hrel]
      rw [hres]
      refine ⟨⟨?_, ?_, ?_, ?_, ?_, ?_, ?_, ?_⟩, rfl⟩
      · exact hkeysN.sublist
          (keysOf_sublist_of_sublist (removeByHandle_sublist _ _))
      · exact hhandN.sublist
          (handlesOf_sublist_of_sublist (removeByHandle_sublist _ _))
      · intro x hx
        obtain ⟨hxm, _⟩ := mem_removeByHandle x hx
        rcases List.mem_append.mp hxm with hx2 | hx2
        · exact Nat.lt_succ_of_lt (hInv.fresh x hx2)
        · rw [List.mem_singleton] at hx2
          subst hx2
          exact Nat.lt_succ_self _
      · intro x hx
        obtain ⟨hxm, _⟩ := mem_removeByHandle x hx
        rcases List.mem_append.mp hxm with hx2 | hx2
        · exact hInv.pos x hx2
        · rw [List.mem_singleton] at hx2
          subst hx2
          exact Nat.le_refl 1
      · intro x hx
        obtain ⟨hxm, hxne⟩ := mem_removeByHandle x hx
        rcases List.mem_append.mp hxm with hx2 | hx2
        · rw [happ, if_neg (fun hc : s.table.nextHandle = x.handle =>
            (Nat.ne_of_lt (hInv.fresh x hx2)) hc.symm), Nat.add_zero,
            hcountNe x.handle hxne]
          exact hInv.counts x hx2
        · rw [List.mem_singleton] at hx2
          subst hx2
          rw [happ]
          show 1 = countRefs (dropRoute s.routes pfx) s.table.nextHandle + _
          rw [if_pos rfl,
            hcountNe s.table.nextHandle (fun hc => hne0 hc.symm), hcrs0]
      · intro r' hr'
        rcases List.mem_append.mp hr' with hr' | hr'
        · obtain ⟨hr'mem, _⟩ := mem_dropRoute r' hr'
          obtain ⟨e', he'mem, he'key, he'h⟩ := hInv.live r' hr'mem
          refine ⟨e', mem_removeByHandle_of_ne
            (List.mem_append_left _ he'mem) ?_, he'key, he'h⟩
          rw [he'h]
          exact hallne r' hr'
        · rw [List.mem_singleton] at hr'
          subst hr'
          refine ⟨⟨k, s.table.nextHandle, 1⟩,
            mem_removeByHandle_of_ne
              (List.mem_append_right _ (List.mem_singleton.mpr rfl)) ?_,
            rfl, rfl⟩
          exact fun hc => hne0 hc.symm
      · rw [pfxsOf_append]
        rw [show pfxsOf [⟨pfx, k, s.table.nextHandle⟩] = [pfx] from rfl]
        rw [nodup_append_single]
        exact ⟨hInv.pfxNodup.sublist
          (pfxsOf_sublist_of_sublist (dropRoute_sublist _ _)),
          not_mem_pfxsOf_dropRoute _ _⟩
      · rw [replayRun_append, hInv.replay]
        show replayRun ⟨handlesOf s.table.entries, mapRefs s.routes⟩
            [HwEvent.create k s.table.nextHandle,
             HwEvent.progRoute pfx s.table.nextHandle,
             HwEvent.destroy r.handle] = _
        rw [replayRun_create_cons]
        rw [replayRun_prog_cons _ _ _ _
          (List.mem_append_right _ (List.mem_singleton.mpr rfl))]
        have hnotin : r.handle ∉
            sndsOf (dropRef (mapRefs s.routes) pfx ++
              [(pfx, s.table.nextHandle)]) := by
          rw [← mapRefs_dropRoute]
          simp only [sndsOf, List.map_append, List.mem_append]
          rintro (hc | hc)
          · rcases List.mem_map.mp hc with ⟨q, hq, hqh⟩
            rcases List.mem_map.mp hq with ⟨r2, hr2, rfl⟩
            exact hallne r2 hr2 hqh
          · simp only [List.map_cons, List.map_nil,
              List.mem_singleton] at hc
            exact hne0 hc
        rw [replayRun_destroy_cons _ _ _ hnotin
          (List.mem_append_left _ (he2h ▸ mem_handlesOf he2mem))]
        simp only [replayRun, absOf, Option.some.injEq, ReplayState.mk.injEq]
        constructor
        · rw [handlesOf_removeByHandle, handlesOf_append]
          rfl
        · rw [mapRefs_append, ← mapRefs_dropRoute]
          rfl
    · -- further references to the old object remain: decrement only
      have htwo : 2 ≤ e2.refCount := by omega
      have hnz : ¬ e2.refCount = 0 := by omega
      have hrel : release
          (⟨s.table.entries ++ [⟨k, s.table.nextHandle, 1⟩],
            s.table.nextHandle + 1⟩ : TableState) r.handle =
          .ok (⟨decByHandle
                  (s.table.entries ++ [⟨k, s.table.nextHandle, 1⟩]) r.handle,
                s.table.nextHandle + 1⟩, []) := by
        simp [release, hfb2, hnz, hone]
      have hres : programRoute allOk s pfx k =
          (⟨⟨decByHandle
               (s.table.entries ++ [⟨k, s.table.nextHandle, 1⟩]) r.handle,
             s.table.nextHandle + 1⟩,
            dropRoute s.routes pfx ++ [⟨pfx, k, s.table.nextHandle⟩],
            s.events ++ [HwEvent.create k s.table.nextHandle,
              HwEvent.progRoute pfx s.table.nextHandle]⟩, none) := by
        simp only [programRoute]
        rw [hrc]
        simp [allOk, hr, hrel]
      rw [hres]
      refine ⟨⟨?_, ?_, ?_, ?_, ?_, ?_, ?_, ?_⟩, rfl⟩
      · rw [keysOf_decByHandle]; exact hkeysN
      · rw [handlesOf_decByHandle]; exact hhandN
      · intro x hx
        rcases mem_decByHandle_nodup hhandN hfb2 x hx with hx2 | ⟨hxm, _⟩
        · subst hx2
          exact Nat.lt_succ_of_lt (hInv.fresh e2 he2mem)
        · rcases List.mem_append.mp hxm with hx2 | hx2
          · exact Nat.lt_succ_of_lt (hInv.fresh x hx2)
          · rw [List.mem_singleton] at hx2
            subst hx2
            exact Nat.lt_succ_self _
      · intro x hx
        rcases mem_decByHandle_nodup hhandN hfb2 x hx with hx2 | ⟨hxm, _⟩
        · subst hx2
          show 1 ≤ e2.refCount - 1
          omega
        · rcases List.mem_append.mp hxm with hx2 | hx2
          · exact hInv.pos x hx2
          · rw [List.mem_singleton] at hx2
            subst hx2
            exact Nat.le_refl 1
      · intro x hx
        rcases mem_decByHandle_nodup hhandN hfb2 x hx with
          hx2 | ⟨hxm, hxne⟩
        · subst hx2
          rw [happ]
          show e2.refCount - 1 =
            countRefs (dropRoute s.routes pfx) e2.handle + _
          rw [he2h, if_neg (fun hc => hne0 hc.symm), Nat.add_zero]
          omega
        · rcases List.mem_append.mp hxm with hx2 | hx2
          · rw [happ, if_neg (fun hc : s.table.nextHandle = x.handle =>
              (Nat.ne_of_lt (hInv.fresh x hx2)) hc.symm), Nat.add_zero,
              hcountNe x.handle hxne]
            exact hInv.counts x hx2
          · rw [List.mem_singleton] at hx2
            subst hx2
            rw [happ]
            show 1 =
              countRefs (dropRoute s.routes pfx) s.table.nextHandle + _
            rw [if_pos rfl,
              hcountNe s.table.nextHandle (fun hc => hne0 hc.symm), hcrs0]
      · intro r' hr'
        rcases List.mem_append.mp hr' with hr' | hr'
        · obtain ⟨hr'mem, _⟩ := mem_dropRoute r' hr'
          obtain ⟨e', he'mem, he'key, he'h⟩ := hInv.live r' hr'mem
          obtain ⟨y, hy, hyk, hyh⟩ :=
            mem_decByHandle_of_keyHandle r.handle e'
              (List.mem_append_left _ he'mem)
          exact ⟨y, hy, by rw [hyk, he'key], by rw [hyh, he'h]⟩
        · rw [List.mem_singleton] at hr'
          subst hr'
          obtain ⟨y, hy, hyk, hyh⟩ :=
            mem_decByHandle_of_keyHandle r.handle
              ⟨k, s.table.nextHandle, 1⟩
              (List.mem_append_right _ (List.mem_singleton.mpr rfl))
          exact ⟨y, hy, hyk, hyh⟩
      · rw [pfxsOf_append]
        rw [show pfxsOf [⟨pfx, k, s.table.nextHandle⟩] = [pfx] from rfl]
        rw [nodup_append_single]
        exact ⟨hInv.pfxNodup.sublist
          (pfxsOf_sublist_of_sublist (dropRoute_sublist _ _)),
          not_mem_pfxsOf_dropRoute _ _⟩
      · rw [replayRun_append, hInv.replay]
        show replayRun ⟨handlesOf s.table.entries, mapRefs s.routes⟩
            [HwEvent.create k s.table.nextHandle,
             HwEvent.progRoute pfx s.table.nextHandle] = _
        rw [replayRun_create_cons]
        rw [replayRun_prog_cons _ _ _ _
          (List.mem_append_right _ (List.mem_singleton.mpr rfl))]
        simp only [replayRun, absOf, Option.some.injEq, ReplayState.mk.injEq]
        constructor
        · rw [handlesOf_decByHandle, handlesOf_append]
          rfl
        · rw [mapRefs_append, ← mapRefs_dropRoute]
          rfl

theorem inv_applyOp {s : EngineState} (hInv : Inv s) (op : EngineOp) :
    Inv (applyOp s op).1 := by
  cases op with
  | add pfx k =>
    rcases hfk : findByKey s.table.entries k with _ | e
    · exact (inv_programRoute_miss hInv pfx k hfk).1
    · exact (inv_programRoute_hit hInv pfx k hfk).1
  | remove pfx => exact (inv_removeRouteOp hInv pfx).1

theorem inv_emptyEngine : Inv emptyEngine := by
  refine ⟨?_, ?_, ?_, ?_, ?_, ?_, ?_, ?_⟩ <;>
    simp [emptyEngine, keysOf, handlesOf, pfxsOf, replayRun, absOf, mapRefs]

theorem inv_runOps {s : EngineState} (hInv : Inv s) (ops : List EngineOp) :
    Inv (runOps s ops) := by
  induction ops generalizing s with
  | nil => exact hInv
  | cons op rest ih =>
    simp only [runOps]
    rcases hap : applyOp s op with ⟨s1, e?⟩
    cases e? with
    | none =>
      have h1 := inv_applyOp hInv op
      rw [hap] at h1
      exact ih h1
    | some err => exact hInv

theorem filter_key_length_le_one {l : List TableEntry}
    (hn : (keysOf l).Nodup) (k : Nat) :
    (l.filter (fun e => decide (e.key = k))).length ≤ 1 := by
  induction l with
  | nil => simp
  | cons e es ih =>
    simp only [keysOf, List.map_cons, List.nodup_cons] at hn
    by_cases h : e.key = k
    · have hnone : List.filter (fun e2 => decide (e2.key = k)) es = [] := by
        rw [List.filter_eq_nil_iff]
        intro a ha
        simp only [decide_eq_true_eq]
        intro hc
        apply hn.1
        rw [h, ← hc]
        exact List.mem_map.mpr ⟨a, ha, rfl⟩
      simp [List.filter, h, hnone]
    · simp only [List.filter, h, decide_eq_true_eq, if_false]
      simpa [h] using ih hn.2

/-- C1: after any sequence of route additions, updates and withdrawals
starting from the empty engine, at most one live hardware object exists
per next-hop key, routes whose next-hop key is equal by value share the
same hardware handle, and each object's reference count equals the
number of routes currently consuming it. -/
theorem c1_next_hop_uniqueness (ops : List EngineOp) :
    (∀ k, objectsForKey (runOps emptyEngine ops).table k ≤ 1) ∧
    (∀ r1 ∈ (runOps emptyEngine ops).routes,
       ∀ r2 ∈ (runOps emptyEngine ops).routes,
         r1.key = r2.key → r1.handle = r2.handle) ∧
    (∀ e ∈ (runOps emptyEngine ops).table.entries,
       e.refCount = countRefs (runOps emptyEngine ops).routes e.handle) := by
  have hInv := inv_runOps inv_emptyEngine ops
  refine ⟨?_, ?_, hInv.counts⟩
  · intro k
    exact filter_key_length_le_one hInv.keysNodup k
  · intro r1 h1 r2 h2 hk
    obtain ⟨e1, he1, he1k, he1h⟩ := hInv.live r1 h1
    obtain ⟨e2, he2, he2k, he2h⟩ := hInv.live r2 h2
    have he12 : e1 = e2 :=
      eq_of_key_nodup hInv.keysNodup he1 he2 (by rw [he1k, he2k, hk])
    rw [← he1h, ← he2h, he12]

/-- C1 witness: two routes through the same next-hop key share one
hardware object. -/
theorem c1_next_hop_uniqueness_witness :
    objectsForKey (runOps emptyEngine
        [EngineOp.add 1 5, EngineOp.add 2 5]).table 5 ≤ 1 ∧
    (⟨1, 5, 0⟩ : RouteEnt).handle = (⟨2, 5, 0⟩ : RouteEnt).handle := by
  have h := c1_next_hop_uniqueness [EngineOp.add 1 5, EngineOp.add 2 5]
  exact ⟨h.1 5,
    h.2.1 ⟨1, 5, 0⟩ (by decide) ⟨2, 5, 0⟩ (by decide) rfl⟩

/-- C5: the hardware call trace of any engine run replays without
ordering violations: every route programming call references a handle
created earlier (and not destroyed in between), and every destroy call
happens only when no programmed route still references the handle. -/
theorem c5_creation_precedes_reference (ops : List EngineOp) :
    (replayRun ⟨[], []⟩ (runOps emptyEngine ops).events).isSome = true := by
  rw [(inv_runOps inv_emptyEngine ops).replay]
  rfl

theorem release_ok_of_found (t : TableState) {h0 : Nat} {e2 : TableEntry}
    (hfb : findByHandle t.entries h0 = some e2) (hpos : 1 ≤ e2.refCount) :
    ∃ t2 ev, release t h0 = .ok (t2, ev) := by
  by_cases hone : e2.refCount = 1
  · exact ⟨{ t with entries := removeByHandle t.entries h0 },
      [HwEvent.destroy h0], by simp [release, hfb, hone]⟩
  · have hnz : ¬ e2.refCount = 0 := by omega
    exact ⟨{ t with entries := decByHandle t.entries h0 }, [],
      by simp [release, hfb, hnz, hone]⟩

/-- C4: a Hardware Backend failure while programming one route aborts
only that route: the software route table and the hardware table entries
are left exactly as before (the route stays in its last
successfully-programmed state, with no partial commit and no dangling
table entry), the failure is reported as `RouteProgrammingFailed`
carrying the affected prefix and a reason, and the pass continues with
the remaining routes. -/
theorem c4_route_failure_isolated {s : EngineState} (hInv : Inv s)
    (bk : Backend) (pfx k : Nat) {s1 : EngineState} {err : PassError}
    (hfail : programRoute bk s pfx k = (s1, some err)) :
    (∃ reason, err = PassError.routeProgrammingFailed pfx reason) ∧
    s1.routes = s.routes ∧
    s1.table.entries = s.table.entries ∧
    ∀ rest, runPass bk s ((pfx, k) :: rest) =
      ((runPass bk s1 rest).1, err :: (runPass bk s1 rest).2) := by
  have hpass : ∀ rest, runPass bk s ((pfx, k) :: rest) =
      ((runPass bk s1 rest).1, err :: (runPass bk s1 rest).2) := by
    intro rest
    simp only [runPass]
    rw [hfail]
    simp
  rcases hfk : findByKey s.table.entries k with _ | e
  · -- the key is not registered
    by_cases hco : bk.createOk k
    · have hrcF : referenceOrCreateF bk s.table k =
          .ok (s.table.nextHandle,
               ⟨s.table.entries ++ [⟨k, s.table.nextHandle, 1⟩],
                s.table.nextHandle + 1⟩,
               [HwEvent.create k s.table.nextHandle]) := by
        simp [referenceOrCreateF, referenceOrCreate, hfk, hco]
      have hfbNew : findByHandle
          (s.table.entries ++ [⟨k, s.table.nextHandle, 1⟩])
          s.table.nextHandle =
          some ⟨k, s.table.nextHandle, 1⟩ := by
        rw [findByHandle_append]
        rw [findByHandle_eq_none_iff.mpr
          (not_mem_handlesOf_of_fresh hInv.fresh)]
        simp [findByHandle]
      by_cases hro : bk.routeOk pfx
      · -- both backend calls succeed: no error is possible
        exfalso
        rcases hr : findRoute s.routes pfx with _ | r
        · have hres : programRoute bk s pfx k =
              (⟨⟨s.table.entries ++ [⟨k, s.table.nextHandle, 1⟩],
                 s.table.nextHandle + 1⟩,
                s.routes ++ [⟨pfx, k, s.table.nextHandle⟩],
                s.events ++ [HwEvent.create k s.table.nextHandle,
                  HwEvent.progRoute pfx s.table.nextHandle]⟩, none) := by
            simp only [programRoute]
            rw [hrcF]
            simp [hro, hr, dropRoute_of_none hr]
          rw [hres] at hfail
          simp at hfail
        · obtain ⟨hrmem, _⟩ := findRoute_mem hr
          obtain ⟨e2, he2mem, _, he2h⟩ := hInv.live r hrmem
          have hfb2 : findByHandle
              (s.table.entries ++ [⟨k, s.table.nextHandle, 1⟩]) r.handle =
              some e2 := by
            rw [findByHandle_append]
            rw [← he2h,
              findByHandle_of_mem_nodup hInv.handlesNodup he2mem]
          obtain ⟨t2, ev3, hrel⟩ :=
            release_ok_of_found
              ⟨s.table.entries ++ [⟨k, s.table.nextHandle, 1⟩],
                s.table.nextHandle + 1⟩ hfb2 (hInv.pos e2 he2mem)
          have hres : programRoute bk s pfx k =
              (⟨t2, dropRoute s.routes pfx ++ [⟨pfx, k, s.table.nextHandle⟩],
                s.events ++ ([HwEvent.create k s.table.nextHandle] ++
                  [HwEvent.progRoute pfx s.table.nextHandle] ++ ev3)⟩,
               none) := by
            simp only [programRoute]
            rw [hrcF]
            simp [hro, hr, hrel]
          rw [hres] at hfail
          simp at hfail
      · -- the route write fails: roll the fresh reference back
        have hrel : release
            (⟨s.table.entries ++ [⟨k, s.table.nextHandle, 1⟩],
              s.table.nextHandle + 1⟩ : TableState) s.table.nextHandle =
            .ok (⟨removeByHandle
                    (s.table.entries ++ [⟨k, s.table.nextHandle, 1⟩])
                    s.table.nextHandle,
                  s.table.nextHandle + 1⟩,
                 [HwEvent.destroy s.table.nextHandle]) := by
          simp [release, hfbNew]
        have hres : programRoute bk s pfx k =
            (⟨⟨removeByHandle
                 (s.table.entries ++ [⟨k, s.table.nextHandle, 1⟩])
                 s.table.nextHandle,
               s.table.nextHandle + 1⟩,
              s.routes,
              s.events ++ [HwEvent.create k s.table.nextHandle,
                HwEvent.destroy s.table.nextHandle]⟩,
             some (.routeProgrammingFailed pfx .hardwareRejected)) := by
          simp only [programRoute]
          rw [hrcF]
          simp [hro, hrel]
        rw [hres] at hfail
        obtain ⟨h1, h2⟩ := Prod.mk.injEq _ _ _ _ ▸ hfail
        injection h2 with h2
        subst h2
        subst h1
        refine ⟨⟨.hardwareRejected, rfl⟩, rfl, ?_, hpass⟩
        · show removeByHandle
              (s.table.entries ++ [⟨k, s.table.nextHandle, 1⟩])
              s.table.nextHandle = s.table.entries
          rw [removeByHandle_append]
          rw [removeByHandle_of_forall_ne
            (fun x hx => Nat.ne_of_lt (hInv.fresh x hx))]
          rw [show removeByHandle [⟨k, s.table.nextHandle, 1⟩]
            s.table.nextHandle = [] from by simp [removeByHandle]]
          simp
    · -- backend create fails: nothing registered, error propagated
      have hres : programRoute bk s pfx k =
          (s, some (.routeProgrammingFailed pfx
            .hardwareResourceExhausted)) := by
        simp [programRoute, referenceOrCreateF, hfk, hco]
      rw [hres] at hfail
      obtain ⟨h1, h2⟩ := Prod.mk.injEq _ _ _ _ ▸ hfail
      injection h2 with h2
      subst h2
      subst h1
      exact ⟨⟨.hardwareResourceExhausted, rfl⟩, rfl, rfl, hpass⟩
  · -- the key is registered: no create call can fail
    obtain ⟨hemem, hekey⟩ := findByKey_mem hfk
    have hrcF : referenceOrCreateF bk s.table k =
        .ok (e.handle,
             { s.table with entries := bumpKey s.table.entries k }, []) := by
      simp [referenceOrCreateF, referenceOrCreate, hfk]
    have hfb2 : findByHandle (bumpKey s.table.entries k) e.handle =
        some { e with refCount := e.refCount + 1 } :=
      findByHandle_bumpKey_hit hInv.handlesNodup hfk
    by_cases hro : bk.routeOk pfx
    · -- the route write succeeds: no error is possible
      exfalso
      rcases hr : findRoute s.routes pfx with _ | r
      · have hres : programRoute bk s pfx k =
            (⟨{ s.table with entries := bumpKey s.table.entries k },
              s.routes ++ [⟨pfx, k, e.handle⟩],
              s.events ++ [HwEvent.progRoute pfx e.handle]⟩, none) := by
          simp only [programRoute]
          rw [hrcF]
          simp [hro, hr, dropRoute_of_none hr]
        rw [hres] at hfail
        simp at hfail
      · obtain ⟨hrmem, _⟩ := findRoute_mem hr
        obtain ⟨e2, he2mem, _, he2h⟩ := hInv.live r hrmem
        have hfbOld : findByHandle (bumpKey s.table.entries k) r.handle =
            some e2 ∨
            findByHandle (bumpKey s.table.entries k) r.handle =
            some { e with refCount := e.refCount + 1 } := by
          by_cases hsame : r.handle = e.handle
          · right
            rw [hsame]
            exact hfb2
          · left
            rw [findByHandle_bumpKey_other hfk hsame, ← he2h]
            exact findByHandle_of_mem_nodup hInv.handlesNodup he2mem
        have hok : ∃ t2 ev, release
            { s.table with entries := bumpKey s.table.entries k }
            r.handle = .ok (t2, ev) := by
          rcases hfbOld with hfb3 | hfb3
          · exact release_ok_of_found _ hfb3 (hInv.pos e2 he2mem)
          · refine release_ok_of_found _ hfb3 ?_
            simp
        obtain ⟨t2, ev3, hrel⟩ := hok
        have hres : programRoute bk s pfx k =
            (⟨t2, dropRoute s.routes pfx ++ [⟨pfx, k, e.handle⟩],
              s.events ++ ([HwEvent.progRoute pfx e.handle] ++ ev3)⟩,
             none) := by
          simp only [programRoute]
          rw [hrcF]
          simp [hro, hr, hrel]
        rw [hres] at hfail
        simp at hfail
    · -- the route write fails: the bumped count is rolled back
      have hone : ¬ e.refCount + 1 = 1 := by
        have := hInv.pos e hemem
        omega
      have hrel : release
          { s.table with entries := bumpKey s.table.entries k } e.handle =
          .ok ({ s.table with
                  entries := decByHandle (bumpKey s.table.entries k)
                    e.handle }, []) := by
        simp [release, hfb2, hone]
      have hres : programRoute bk s pfx k =
          (⟨{ s.table with
               entries := decByHandle (bumpKey s.table.entries k)
                 e.handle },
            s.routes, s.events⟩,
           some (.routeProgrammingFailed pfx .hardwareRejected)) := by
        simp only [programRoute]
        rw [hrcF]
        simp [hro, hrel]
      rw [hres] at hfail
      obtain ⟨h1, h2⟩ := Prod.mk.injEq _ _ _ _ ▸ hfail
      injection h2 with h2
      subst h2
      subst h1
      refine ⟨⟨.hardwareRejected, rfl⟩, rfl, ?_, hpass⟩
      · show decByHandle (bumpKey s.table.entries k) e.handle =
          s.table.entries
        exact decByHandle_bumpKey_roundtrip hInv.handlesNodup hfk

/-- C4 witness: a backend whose create call fails leaves the empty
engine untouched, reports the failed prefix, and the pass continues. -/
theorem c4_route_failure_isolated_witness :
    (∃ reason, PassError.routeProgrammingFailed 1
        HwError.hardwareResourceExhausted =
        PassError.routeProgrammingFailed 1 reason) ∧
    emptyEngine.routes = emptyEngine.routes ∧
    emptyEngine.table.entries = emptyEngine.table.entries ∧
    ∀ rest, runPass ⟨fun _ => false, fun _ => true⟩ emptyEngine
        ((1, 5) :: rest) =
      ((runPass ⟨fun _ => false, fun _ => true⟩ emptyEngine rest).1,
       PassError.routeProgrammingFailed 1
           HwError.hardwareResourceExhausted ::
         (runPass ⟨fun _ => false, fun _ => true⟩ emptyEngine rest).2) :=
  c4_route_failure_isolated inv_emptyEngine
    ⟨fun _ => false, fun _ => true⟩ 1 5 rfl

/-- C2: `referenceOrCreate` on a registered key returns the existing
object's handle with its reference count incremented by one, other keys
untouched and no backend create call; on an unregistered key it creates
exactly one new object through the backend, registers it with count 1
and returns its handle; `lookup` never changes the table (and hence no
reference count). -/
theorem c2_referenceOrCreate_lookup (t : TableState) (k : Nat) :
    (∀ e, findByKey t.entries k = some e →
        (referenceOrCreate t k).1 = e.handle ∧
        (referenceOrCreate t k).2.2 = [] ∧
        refCountOfKey (referenceOrCreate t k).2.1 k = some (e.refCount + 1) ∧
        ∀ k2, k2 ≠ k →
          findByKey (referenceOrCreate t k).2.1.entries k2 =
            findByKey t.entries k2) ∧
    (findByKey t.entries k = none →
        (referenceOrCreate t k).1 = t.nextHandle ∧
        (referenceOrCreate t k).2.1.entries =
          t.entries ++ [⟨k, t.nextHandle, 1⟩] ∧
        refCountOfKey (referenceOrCreate t k).2.1 k = some 1 ∧
        (referenceOrCreate t k).2.2 = [HwEvent.create k t.nextHandle]) ∧
    (lookup t k).2 = t := by
  refine ⟨?_, ?_, rfl⟩
  · intro e he
    refine ⟨?_, ?_, ?_, ?_⟩
    · simp [referenceOrCreate, he]
    · simp [referenceOrCreate, he]
    · simp [referenceOrCreate, he, refCountOfKey, findByKey_bumpKey_self]
    · intro k2 hk2
      simp [referenceOrCreate, he, findByKey_bumpKey_ne _ _ _ hk2]
  · intro he
    refine ⟨?_, ?_, ?_, ?_⟩
    · simp [referenceOrCreate, he]
    · simp [referenceOrCreate, he]
    · simp only [referenceOrCreate, he, refCountOfKey]
      rw [findByKey_append_of_none _ _ _ he]
      simp [findByKey]
    · simp [referenceOrCreate, he]

/-- C2 witness: concrete evaluations of both branches of
`referenceOrCreate` and of `lookup`. -/
theorem c2_referenceOrCreate_lookup_witness :
    (referenceOrCreate ⟨[⟨5, 0, 2⟩], 1⟩ 5).1 = 0 ∧
    refCountOfKey (referenceOrCreate ⟨[⟨5, 0, 2⟩], 1⟩ 5).2.1 5 = some 3 ∧
    (referenceOrCreate ⟨[⟨5, 0, 2⟩], 1⟩ 7).2.2 = [HwEvent.create 7 1] := by
  have h1 := (c2_referenceOrCreate_lookup ⟨[⟨5, 0, 2⟩], 1⟩ 5).1
    ⟨5, 0, 2⟩ (by decide)
  have h2 := (c2_referenceOrCreate_lookup ⟨[⟨5, 0, 2⟩], 1⟩ 7).2.1
    (by decide)
  exact ⟨h1.1, h1.2.2.1, h2.2.2.2⟩

/-- C3: `release` on a handle with positive count decrements the count
by one; exactly when the count reaches zero the object is destroyed via
the backend and removed from the table; releasing a handle whose count
is already zero (or that is not registered at all) yields the
`ResourceUnderflow` error and no table change. -/
theorem c3_release (t : TableState) (h : Nat) :
    (findByHandle t.entries h = none →
        release t h = .error .resourceUnderflow) ∧
    (∀ e, findByHandle t.entries h = some e →
        (e.refCount = 0 → release t h = .error .resourceUnderflow) ∧
        (e.refCount = 1 →
            release t h =
              .ok ({ t with entries := removeByHandle t.entries h },
                   [HwEvent.destroy h]) ∧
            findByHandle (removeByHandle t.entries h) h = none) ∧
        (2 ≤ e.refCount →
            release t h =
              .ok ({ t with entries := decByHandle t.entries h }, []) ∧
            refCountOfHandle { t with entries := decByHandle t.entries h } h =
              some (e.refCount - 1) ∧
            ∀ h2, h2 ≠ h →
              findByHandle (decByHandle t.entries h) h2 =
                findByHandle t.entries h2)) := by
  constructor
  · intro hnone
    simp [release, hnone]
  · intro e he
    refine ⟨?_, ?_, ?_⟩
    · intro h0
      simp [release, he, h0]
    · intro h1
      refine ⟨?_, findByHandle_removeByHandle_self _ _⟩
      simp [release, he, h1]
    · intro h2
      have h0 : ¬ e.refCount = 0 := by omega
      have h1 : ¬ e.refCount = 1 := by omega
      refine ⟨?_, ?_, ?_⟩
      · simp [release, he, h0, h1]
      · simp [refCountOfHandle, findByHandle_decByHandle_self, he]
      · intro h3 hne
        exact findByHandle_decByHandle_ne _ _ _ hne

/-- C3 witness: concrete evaluations of all three `release` branches. -/
theorem c3_release_witness :
    release ⟨[⟨5, 0, 2⟩], 1⟩ 3 = .error .resourceUnderflow ∧
    release ⟨[⟨5, 0, 1⟩], 1⟩ 0 = .ok (⟨[], 1⟩, [HwEvent.destroy 0]) ∧
    release ⟨[⟨5, 0, 2⟩], 1⟩ 0 = .ok (⟨[⟨5, 0, 1⟩], 1⟩, []) := by
  have h1 := (c3_release ⟨[⟨5, 0, 2⟩], 1⟩ 3).1 (by decide)
  have h2 := ((c3_release ⟨[⟨5, 0, 1⟩], 1⟩ 0).2 ⟨5, 0, 1⟩ (by decide)).2.1
    (by decide)
  have h3 := (((c3_release ⟨[⟨5, 0, 2⟩], 1⟩ 0).2 ⟨5, 0, 2⟩ (by decide)).2.2
    (by decide)).1
  refine ⟨h1, ?_, ?_⟩
  · have := h2.1
    simpa [removeByHandle] using this
  · simpa [decByHandle] using h3

theorem populateCache_keys (hw : List (Nat × Nat)) :
    (populateCache hw).map (fun c => c.key) = hw.map (fun q => q.1) := by
  induction hw with
  | nil => rfl
  | cons q rest ih =>
    simp only [populateCache, List.map_cons] at ih ⊢
    rw [ih]

theorem mem_populateCache_unclaimed {hw : List (Nat × Nat)}
    {c : CacheEntry} (hc : c ∈ populateCache hw) : c.claimed = false := by
  induction hw with
  | nil => simp [populateCache] at hc
  | cons q rest ih =>
    simp only [populateCache, List.map_cons, List.mem_cons] at hc
    rcases hc with hc | hc
    · subst hc; rfl
    · exact ih hc

theorem findCache_mem {cs : List CacheEntry} {k : Nat} {c : CacheEntry}
    (h : findCache cs k = some c) :
    c ∈ cs ∧ c.key = k ∧ c.claimed = false := by
  induction cs with
  | nil => simp [findCache] at h
  | cons c0 rest ih =>
    by_cases h2 : c0.key = k ∧ c0.claimed = false
    · simp only [findCache, if_pos h2, Option.some.injEq] at h
      subst h
      exact ⟨List.mem_cons_self _ _, h2.1, h2.2⟩
    · simp only [findCache, if_neg h2] at h
      rcases ih h with ⟨hm, hk, hu⟩
      exact ⟨List.mem_cons_of_mem _ hm, hk, hu⟩

theorem claimKey_keys (cs : List CacheEntry) (k : Nat) :
    (claimKey cs k).map (fun c => c.key) = cs.map (fun c => c.key) := by
  induction cs with
  | nil => rfl
  | cons c0 rest ih =>
    by_cases h2 : c0.key = k ∧ c0.claimed = false
    · simp only [claimKey, if_pos h2, List.map_cons]
    · simp only [claimKey, if_neg h2, List.map_cons]
      rw [ih]

theorem findCache_of_unclaimed {cs : List CacheEntry} {k : Nat}
    {c : CacheEntry} (hn : (cs.map (fun c2 => c2.key)).Nodup)
    (hc : c ∈ cs) (hk : c.key = k) (hun : c.claimed = false) :
    findCache cs k = some c := by
  induction cs with
  | nil => simp at hc
  | cons c0 rest ih =>
    simp only [List.map_cons, List.nodup_cons] at hn
    rcases List.mem_cons.mp hc with hc | hc
    · subst hc
      simp [findCache, hk, hun]
    · have hck : c.key ∈ rest.map (fun c2 => c2.key) :=
        List.mem_map.mpr ⟨c, hc, rfl⟩
      have h0 : ¬ (c0.key = k ∧ c0.claimed = false) := by
        rintro ⟨h0k, _⟩
        apply hn.1
        rw [h0k, ← hk]
        exact hck
      simp only [findCache, if_neg h0]
      exact ih hn.2 hc

theorem mem_claimKey_nodup {cs : List CacheEntry} {k : Nat}
    {c0 : CacheEntry} (hn : (cs.map (fun c => c.key)).Nodup)
    (hf : findCache cs k = some c0) :
    ∀ c' ∈ claimKey cs k,
      c' = { c0 with claimed := true } ∨ (c' ∈ cs ∧ c'.key ≠ k) := by
  induction cs with
  | nil => simp [findCache] at hf
  | cons ch rest ih =>
    simp only [List.map_cons, List.nodup_cons] at hn
    intro c' hc'
    by_cases h2 : ch.key = k ∧ ch.claimed = false
    · simp only [findCache, if_pos h2, Option.some.injEq] at hf
      subst hf
      simp only [claimKey] at hc'
      rw [if_pos h2] at hc'
      rcases List.mem_cons.mp hc' with hc' | hc'
      · exact Or.inl hc'
      · refine Or.inr ⟨List.mem_cons_of_mem _ hc', ?_⟩
        intro hck
        apply hn.1
        rw [h2.1, ← hck]
        exact List.mem_map.mpr ⟨c', hc', rfl⟩
    · simp only [findCache, if_neg h2] at hf
      simp only [claimKey, if_neg h2] at hc'
      rcases List.mem_cons.mp hc' with hc' | hc'
      · subst hc'
        refine Or.inr ⟨List.mem_cons_self _ _, ?_⟩
        intro hck
        obtain ⟨hm0, hk0, _⟩ := findCache_mem hf
        apply hn.1
        rw [hck, ← hk0]
        exact List.mem_map.mpr ⟨c0, hm0, rfl⟩
      · rcases ih hn.2 hf c' hc' with h | ⟨hm, hne⟩
        · exact Or.inl h
        · exact Or.inr ⟨List.mem_cons_of_mem _ hm, hne⟩

theorem adopt_keys_mono (w : WbState) (k : Nat) :
    ∀ k2 ∈ keysOf w.table.entries,
      k2 ∈ keysOf (referenceOrAdopt w k).table.entries := by
  intro k2 hk2
  rcases hfk : findByKey w.table.entries k with _ | e
  · rcases hfc : findCache w.cache k with _ | c
    · simp only [referenceOrAdopt, hfk, hfc]
      rw [keysOf_append]
      exact List.mem_append_left _ hk2
    · simp only [referenceOrAdopt, hfk, hfc]
      rw [keysOf_append]
      exact List.mem_append_left _ hk2
  · simp only [referenceOrAdopt, hfk]
    rw [keysOf_bumpKey]
    exact hk2

theorem foldl_keys_mono (d : List Nat) (w : WbState) :
    ∀ k2 ∈ keysOf w.table.entries,
      k2 ∈ keysOf (d.foldl referenceOrAdopt w).table.entries := by
  induction d generalizing w with
  | nil => intro k2 hk2; exact hk2
  | cons k rest ih =>
    intro k2 hk2
    exact ih _ _ (adopt_keys_mono w k k2 hk2)

theorem wbInv_adopt {w : WbState} (hInv : WbInv w) {k : Nat}
    (hk : k ∈ w.cache.map (fun c => c.key)) :
    WbInv (referenceOrAdopt w k) ∧
    k ∈ keysOf (referenceOrAdopt w k).table.entries ∧
    (referenceOrAdopt w k).cache.map (fun c => c.key) =
      w.cache.map (fun c => c.key) := by
  rcases hfk : findByKey w.table.entries k with _ | e
  · -- table miss: the object is adopted from the cache, never created
    obtain ⟨c, hcmem, hck⟩ := List.mem_map.mp hk
    have hun : c.claimed = false := by
      cases hcl : c.claimed
      · rfl
      · exfalso
        have h1 := hInv.claimedIn c hcmem hcl
        rw [hck] at h1
        exact (findByKey_eq_none_iff.mp hfk) h1
    have hfc : findCache w.cache k = some c :=
      findCache_of_unclaimed hInv.cacheKeysN hcmem hck hun
    have hres : referenceOrAdopt w k =
        ⟨claimKey w.cache k,
         { w.table with entries := w.table.entries ++ [⟨k, c.handle, 1⟩] },
         w.events⟩ := by
      simp [referenceOrAdopt, hfk, hfc]
    rw [hres]
    refine ⟨⟨hInv.evs, ?_, ?_, ?_⟩, ?_, ?_⟩
    · rw [claimKey_keys]
      exact hInv.cacheKeysN
    · intro c' hc' hcl'
      rcases mem_claimKey_nodup hInv.cacheKeysN hfc c' hc' with
        h | ⟨hmem, _⟩
      · subst h
        show c.key ∈ keysOf (w.table.entries ++ [⟨k, c.handle, 1⟩])
        rw [keysOf_append, hck]
        exact List.mem_append_right _ (by simp [keysOf])
      · have h1 := hInv.claimedIn c' hmem hcl'
        rw [keysOf_append]
        exact List.mem_append_left _ h1
    · intro c' hc' hcl'
      rcases mem_claimKey_nodup hInv.cacheKeysN hfc c' hc' with
        h | ⟨hmem, hne⟩
      · subst h
        simp at hcl'
      · intro hcontra
        rw [keysOf_append] at hcontra
        rcases List.mem_append.mp hcontra with h2 | h2
        · exact hInv.unclaimedOut c' hmem hcl' h2
        · simp only [keysOf, List.map_cons, List.map_nil,
            List.mem_singleton] at h2
          exact hne h2
    · rw [keysOf_append]
      exact List.mem_append_right _ (by simp [keysOf])
    · exact claimKey_keys _ _
  · -- table hit: the count is bumped, cache untouched
    have hres : referenceOrAdopt w k =
        { w with table :=
            { w.table with entries := bumpKey w.table.entries k } } := by
      simp [referenceOrAdopt, hfk]
    rw [hres]
    refine ⟨⟨hInv.evs, hInv.cacheKeysN, ?_, ?_⟩, ?_, rfl⟩
    · intro c' hc' hcl'
      show c'.key ∈ keysOf (bumpKey w.table.entries k)
      rw [keysOf_bumpKey]
      exact hInv.claimedIn c' hc' hcl'
    · intro c' hc' hcl'
      show c'.key ∉ keysOf (bumpKey w.table.entries k)
      rw [keysOf_bumpKey]
      exact hInv.unclaimedOut c' hc' hcl'
    · show k ∈ keysOf (bumpKey w.table.entries k)
      rw [keysOf_bumpKey]
      obtain ⟨hm, hkk⟩ := findByKey_mem hfk
      exact hkk ▸ (List.mem_map.mpr ⟨e, hm, rfl⟩)

theorem wbInv_fold {w : WbState} (hInv : WbInv w) (d : List Nat)
    (hd : ∀ k ∈ d, k ∈ w.cache.map (fun c => c.key)) :
    WbInv (d.foldl referenceOrAdopt w) ∧
    (∀ k ∈ d, k ∈ keysOf (d.foldl referenceOrAdopt w).table.entries) ∧
    (d.foldl referenceOrAdopt w).cache.map (fun c => c.key) =
      w.cache.map (fun c => c.key) := by
  induction d generalizing w with
  | nil => exact ⟨hInv, by simp, rfl⟩
  | cons k rest ih =>
    simp only [List.foldl]
    obtain ⟨hInv1, hkin, hcacheEq⟩ :=
      wbInv_adopt hInv (hd k (List.mem_cons_self _ _))
    obtain ⟨hInvF, hrestIn, hcacheEqF⟩ := ih hInv1 (fun k2 hk2 => by
      rw [hcacheEq]
      exact hd k2 (List.mem_cons_of_mem _ hk2))
    refine ⟨hInvF, ?_, by rw [hcacheEqF, hcacheEq]⟩
    intro k2 hk2
    rcases List.mem_cons.mp hk2 with h | h
    · subst h
      exact foldl_keys_mono rest _ _ hkin
    · exact hrestIn k2 h

/-- C6: reconciling a hardware state produced by a prior run (one object
per distinct next-hop key) against an unchanged desired state claims
every enumerated cache entry and issues zero backend create calls, zero
destroy calls, and zero purges. -/
theorem c6_warm_boot_idempotent (hw : List (Nat × Nat))
    (desired : List Nat) (hn : (hw.map (fun q => q.1)).Nodup)
    (hcov : ∀ q ∈ hw, q.1 ∈ desired)
    (hsub : ∀ k ∈ desired, k ∈ hw.map (fun q => q.1)) :
    (∀ c ∈ (reconcile hw desired).1.cache, c.claimed = true) ∧
    (reconcile hw desired).1.events = [] ∧
    (reconcile hw desired).2 = [] := by
  have hInv0 : WbInv ⟨populateCache hw,
      ⟨[], ((hw.map (fun q => q.2)).foldr max 0) + 1⟩, []⟩ := by
    refine ⟨rfl, ?_, ?_, ?_⟩
    · show ((populateCache hw).map (fun c => c.key)).Nodup
      rw [populateCache_keys]
      exact hn
    · intro c hc hcl
      rw [mem_populateCache_unclaimed hc] at hcl
      cases hcl
    · intro c hc _
      simp [keysOf]
  have hd0 : ∀ k ∈ desired,
      k ∈ (populateCache hw).map (fun c => c.key) := by
    intro k hk
    rw [populateCache_keys]
    exact hsub k hk
  obtain ⟨hInvF, hinF, hcacheEq⟩ := wbInv_fold hInv0 desired hd0
  have hall : ∀ c ∈ (desired.foldl referenceOrAdopt
      ⟨populateCache hw,
       ⟨[], ((hw.map (fun q => q.2)).foldr max 0) + 1⟩, []⟩).cache,
      c.claimed = true := by
    intro c hc
    cases hcl : c.claimed
    · exfalso
      have hkmem : c.key ∈ hw.map (fun q => q.1) := by
        have h1 : c.key ∈ (desired.foldl referenceOrAdopt
            ⟨populateCache hw,
             ⟨[], ((hw.map (fun q => q.2)).foldr max 0) + 1⟩,
             []⟩).cache.map (fun c2 => c2.key) :=
          List.mem_map.mpr ⟨c, hc, rfl⟩
        rw [hcacheEq] at h1
        rw [populateCache_keys] at h1
        exact h1
      obtain ⟨q, hq, hqk⟩ := List.mem_map.mp hkmem
      have hkdes : c.key ∈ desired := by
        rw [← hqk]
        exact hcov q hq
      exact hInvF.unclaimedOut c hc hcl (hinF c.key hkdes)
    · rfl
  have hstale : ((desired.foldl referenceOrAdopt
      ⟨populateCache hw,
       ⟨[], ((hw.map (fun q => q.2)).foldr max 0) + 1⟩, []⟩).cache.filter
        (fun c => decide (c.claimed = false))) = [] := by
    rw [List.filter_eq_nil_iff]
    intro c hc
    simp [hall c hc]
  refine ⟨?_, ?_, ?_⟩
  · intro c hc
    exact hall c hc
  · show (reconcile hw desired).1.events = []
    simp only [reconcile, purgeUnclaimed, hstale]
    rw [hInvF.evs]
    rfl
  · show (reconcile hw desired).2 = []
    simp only [reconcile, purgeUnclaimed, hstale]
    rfl

/-- C6 witness: a concrete prior hardware image and identical desired
state reconcile with full adoption and no churn. -/
theorem c6_warm_boot_idempotent_witness :
    (∀ c ∈ (reconcile [(5, 100), (7, 101)] [5, 7, 5]).1.cache,
      c.claimed = true) ∧
    (reconcile [(5, 100), (7, 101)] [5, 7, 5]).1.events = [] ∧
    (reconcile [(5, 100), (7, 101)] [5, 7, 5]).2 = [] :=
  c6_warm_boot_idempotent [(5, 100), (7, 101)] [5, 7, 5]
    (by decide) (by decide) (by decide)

/-- C7 counterexample: the OSS warm-boot code's mirror removal hook
`BcmWarmBootCache::removeUnclaimedMirror` has an empty body and issues
no hardware removal call, so the claim that every still-unclaimed cache
entry receives a removal call for its hardware object (and does not
survive reconciliation) is false at a concrete unclaimed mirror. -/
theorem c7_counterexample :
    ¬ (∀ (m : Nat) (hwMirrors : List Nat), m ∈ hwMirrors →
        HwEvent.destroy m ∈ (removeUnclaimedMirror m hwMirrors).2 ∧
        m ∉ (removeUnclaimedMirror m hwMirrors).1) := by
  intro h
  have h1 := h 7 [7] (by decide)
  simp [removeUnclaimedMirror] at h1

/-- C7 amended: still-unclaimed mirror entries are handed to the
per-type removal hook, but in this code `removeUnclaimedMirror` is an
empty stub, so the post-pass loop issues no backend call at all and the
programmed mirrors survive reconciliation unchanged. -/
theorem c7_unclaimed_mirror_survives (ms hwMirrors : List Nat) :
    removeUnclaimedMirrors ms hwMirrors = (hwMirrors, []) := by
  induction ms generalizing hwMirrors with
  | nil => rfl
  | cons m rest ih =>
    simp [removeUnclaimedMirrors, removeUnclaimedMirror, ih]

theorem lockedBodyLen_pos (m : SaiMethod) : 1 ≤ lockedBodyLen m := by
  cases m <;> simp [lockedBodyLen]

theorem saiLockInv_init (ms : Nat → SaiMethod) : SaiLockInv ms saiInit := by
  simp [SaiLockInv, saiInit]

theorem saiLockInv_step {ms : Nat → SaiMethod} {c c2 : SaiConf}
    (hstep : SaiStep ms c c2) (hInv : SaiLockInv ms c) :
    SaiLockInv ms c2 := by
  cases hstep with
  | acquire i h0 hfree =>
    simp only [SaiLockInv] at hInv ⊢
    rw [hfree] at hInv
    constructor
    · show 1 ≤ Function.update c.pc i 1 i ∧
        Function.update c.pc i 1 i ≤ lockedBodyLen (ms i)
      rw [Function.update_same]
      exact ⟨Nat.le_refl 1, lockedBodyLen_pos _⟩
    · intro j hj
      show Function.update c.pc i 1 j = 0 ∨
        Function.update c.pc i 1 j = lockedBodyLen (ms j) + 1
      rw [Function.update_noteq hj]
      exact hInv j
  | work i p hp h1 h2 hown =>
    simp only [SaiLockInv] at hInv ⊢
    rw [hown] at hInv ⊢
    obtain ⟨hcrit, hothers⟩ := hInv
    constructor
    · show 1 ≤ Function.update c.pc i (p + 1) i ∧
        Function.update c.pc i (p + 1) i ≤ lockedBodyLen (ms i)
      rw [Function.update_same]
      exact ⟨by omega, by omega⟩
    · intro j hj
      show Function.update c.pc i (p + 1) j = 0 ∨
        Function.update c.pc i (p + 1) j = lockedBodyLen (ms j) + 1
      rw [Function.update_noteq hj]
      exact hothers j hj
  | unlock i hp h1 hown =>
    simp only [SaiLockInv] at hInv ⊢
    rw [hown] at hInv
    obtain ⟨hcrit, hothers⟩ := hInv
    intro j
    by_cases hj : j = i
    · subst hj
      show Function.update c.pc j (c.pc j + 1) j = 0 ∨
        Function.update c.pc j (c.pc j + 1) j = lockedBodyLen (ms j) + 1
      rw [Function.update_same]
      right
      rw [hp]
    · show Function.update c.pc i (c.pc i + 1) j = 0 ∨
        Function.update c.pc i (c.pc i + 1) j = lockedBodyLen (ms j) + 1
      rw [Function.update_noteq hj]
      exact hothers j hj

theorem saiLockInv_reach {ms : Nat → SaiMethod} {c : SaiConf}
    (h : SaiReach ms c) : SaiLockInv ms c := by
  induction h with
  | refl => exact saiLockInv_init ms
  | tail hsteps hstep ih => exact saiLockInv_step hstep ih

/-- C8: in the interleaving semantics of the lock-guarded `SaiSwitch`
entry points — every public method of SaiSwitch.cpp constructs a
`lock_guard` on the single `saiSwitchMutex_` before running its
`...Locked` body and releases it on return — no two threads are ever
simultaneously inside their locked bodies, so no two hardware-table
mutations (state-delta applications, reference changes, warm-boot cache
operations) are ever interleaved. -/
theorem c8_mutual_exclusion (ms : Nat → SaiMethod) (c : SaiConf)
    (hreach : SaiReach ms c) (i j : Nat) (hij : i ≠ j) :
    ¬ (inCritical ms c i ∧ inCritical ms c j) := by
  rintro ⟨hi, hj⟩
  have hInv := saiLockInv_reach hreach
  simp only [SaiLockInv] at hInv
  rcases howner : c.owner with _ | i0
  · rw [howner] at hInv
    rcases hInv i with h | h
    · exact absurd hi (by simp [inCritical, h])
    · obtain ⟨h1, h2⟩ := hi
      rw [h] at h2
      omega
  · rw [howner] at hInv
    obtain ⟨hcrit, hothers⟩ := hInv
    by_cases hii0 : i = i0
    · subst hii0
      rcases hothers j (fun hc => hij hc.symm) with h | h
      · exact absurd hj (by simp [inCritical, h])
      · obtain ⟨h1, h2⟩ := hj
        rw [h] at h2
        omega
    · rcases hothers i hii0 with h | h
      · exact absurd hi (by simp [inCritical, h])
      · obtain ⟨h1, h2⟩ := hi
        rw [h] at h2
        omega

/-- C8 witness: the theorem applied at the initial configuration. -/
theorem c8_mutual_exclusion_witness :
    ¬ (inCritical (fun _ => SaiMethod.stateChanged) saiInit 0 ∧
       inCritical (fun _ => SaiMethod.stateChanged) saiInit 1) :=
  c8_mutual_exclusion (fun _ => SaiMethod.stateChanged) saiInit
    Relation.ReflTransGen.refl 0 1 (by decide)

theorem insertSorted_append {s : List Nat} {x : Nat}
    (h : ∀ y ∈ s, y < x) : insertSorted s x = s ++ [x] := by
  induction s with
  | nil => rfl
  | cons y ys ih =>
    have hy : y < x := h y (List.mem_cons_self _ _)
    have h1 : ¬ x < y := by omega
    have h2 : ¬ x = y := by omega
    simp only [insertSorted, h1, h2, if_false]
    rw [ih (fun z hz => h z (List.mem_cons_of_mem _ hz))]
    rfl

theorem foldl_insertSorted {s rest : List Nat}
    (h : List.Pairwise (· < ·) (s ++ rest)) :
    rest.foldl insertSorted s = s ++ rest := by
  induction rest generalizing s with
  | nil => simp
  | cons r rest2 ih =>
    simp only [List.foldl]
    have hall : ∀ y ∈ s, y < r := by
      rw [List.pairwise_append] at h
      intro y hy
      exact h.2.2 y hy r (List.mem_cons_self _ _)
    rw [insertSorted_append hall]
    have h2 : List.Pairwise (· < ·) ((s ++ [r]) ++ rest2) := by
      rw [List.append_assoc]
      exact h
    rw [ih h2]
    simp

/-- C9: the `AggregatePortFields` serialization round trip preserves id,
name, description and the subports, and every subport's forwarding state
after the round trip is the defaulted constructor value — the forwarding
map is not serialized by `toFollyDynamic`. -/
theorem c9_aggregate_port_roundtrip (f : AggregatePortFields)
    (hsorted : List.Pairwise (· < ·) f.ports) :
    (AggregatePortFields.fromFollyDynamic
      (AggregatePortFields.toFollyDynamic f)).id = f.id ∧
    (AggregatePortFields.fromFollyDynamic
      (AggregatePortFields.toFollyDynamic f)).name = f.name ∧
    (AggregatePortFields.fromFollyDynamic
      (AggregatePortFields.toFollyDynamic f)).description =
        f.description ∧
    (AggregatePortFields.fromFollyDynamic
      (AggregatePortFields.toFollyDynamic f)).ports = f.ports ∧
    (AggregatePortFields.fromFollyDynamic
      (AggregatePortFields.toFollyDynamic f)).portToFwdState =
      f.ports.map (fun p => (p, fwdDefault)) := by
  have h0 : List.Pairwise (· < ·) (([] : List Nat) ++ f.ports) := by
    simpa using hsorted
  have hp : f.ports.foldl insertSorted [] = f.ports := by
    simpa using foldl_insertSorted h0
  refine ⟨rfl, rfl, rfl, ?_, ?_⟩
  · show f.ports.foldl insertSorted [] = f.ports
    exact hp
  · show (f.ports.foldl insertSorted []).map (fun p => (p, fwdDefault)) =
      f.ports.map (fun p => (p, fwdDefault))
    rw [hp]

/-- C9 witness: a concrete aggregate port round trip. -/
theorem c9_aggregate_port_roundtrip_witness :
    (AggregatePortFields.fromFollyDynamic (AggregatePortFields.toFollyDynamic
      ⟨1, "po1", "agg", [1, 2, 3], [(1, Forwarding.enabled)]⟩)).ports =
      [1, 2, 3] ∧
    (AggregatePortFields.fromFollyDynamic (AggregatePortFields.toFollyDynamic
      ⟨1, "po1", "agg", [1, 2, 3],
        [(1, Forwarding.enabled)]⟩)).portToFwdState =
      [(1, fwdDefault), (2, fwdDefault), (3, fwdDefault)] := by
  have h := c9_aggregate_port_roundtrip
    ⟨1, "po1", "agg", [1, 2, 3], [(1, Forwarding.enabled)]⟩ (by decide)
  exact ⟨h.2.2.2.1, h.2.2.2.2⟩

theorem applySaiOp_bootType (s : SaiSwitchS) (op : SaiOp) :
    (applySaiOp s op).bootType = s.bootType := by
  cases op
  case switchRunStateChanged st => cases st <;> rfl
  all_goals rfl

theorem runSaiOps_bootType (s : SaiSwitchS) (ops : List SaiOp) :
    (runSaiOps s ops).bootType = s.bootType := by
  induction ops generalizing s with
  | nil => rfl
  | cons op rest ih =>
    simp only [runSaiOps]
    rw [ih, applySaiOp_bootType]

/-- C10: `SaiSwitch::init` always returns an `HwInitResult` whose boot
type is `COLD_BOOT`, and after any sequence of subsequent locked
operations `getBootType` still returns `COLD_BOOT`: the SAI backend
never takes the warm-boot path, regardless of preserved hardware
state. -/
theorem c10_sai_always_cold_boot (s0 : SaiSwitchS) (ops : List SaiOp) :
    (s0.initLocked).1.bootType = BootType.coldBoot ∧
    (runSaiOps (s0.initLocked).2 ops).getBootTypeLocked =
      BootType.coldBoot := by
  refine ⟨rfl, ?_⟩
  show (runSaiOps (s0.initLocked).2 ops).bootType = BootType.coldBoot
  rw [runSaiOps_bootType]
  rfl

end Fboss
